import Mathlib

/-!
Verification development for the postgres→typesense sync engine
(`pg_to_typesense`).  The Python source is shallowly embedded:

* `utils.py` (`convert_date_to_timestamp`, `convert_vector_to_float_array`,
  `normalize_document_for_typesense`) is embedded over an inductive `PyVal`
  type of Python runtime values.  Python `float`s are modelled as exact
  decimal rationals (`PyFloat`); Python dicts are modelled as
  insertion-ordered association lists.
* `sync.py`'s `sync` consumer loop is embedded as pure state transformers
  over a queue of `QueueEntry`, with the external collaborators (row store,
  transform pipeline success, Typesense responses) supplied as oracle
  functions in an `Env` record.
-/

namespace PgTsSync

/-- Result of a Python call that can raise: `ok v` is a normal return,
    `err` is a raised exception (the callers here only catch and never
    inspect the message). -/
inductive Res (α : Type) where
  | ok : α → Res α
  | err : Res α
deriving DecidableEq, Repr

/-- Model of a Python float as an exact decimal rational
`num / 10 ^ shift`, kept in lowest decimal terms (`shift = 0` or
`num` not divisible by 10), which makes equality of the decimal values
appearing in this codebase structural.  The IEEE rounding of the source
is outside the model. -/
structure PyFloat where
  num : Int
  shift : Nat
deriving DecidableEq, Repr

/-- Strip common factors of 10 (fuel-bounded by the initial shift). -/
def stripTens : Int → Nat → Nat → PyFloat
  | n, s, 0 => ⟨n, s⟩
  | n, s, fuel + 1 =>
    if s = 0 then ⟨n, s⟩
    else if n % 10 = 0 then stripTens (n / 10) (s - 1) fuel
    else ⟨n, s⟩

def PyFloat.norm (n : Int) (s : Nat) : PyFloat := stripTens n s s

def PyFloat.ofInt (n : Int) : PyFloat := ⟨n, 0⟩

/-- `int(q)` on a Python float: truncation toward zero
(`Int.tdiv` is T-division). -/
def PyFloat.trunc (q : PyFloat) : Int := q.num.tdiv ((10 : Int) ^ q.shift)

/-! ### Calendar arithmetic (for `datetime` parsing)

Days between a proleptic-Gregorian civil date and 1970-01-01
(Hinnant's algorithm; years are restricted to Python's 1..9999 so all
intermediate quantities stay nonnegative). -/

def daysFromCivil (y m d : Nat) : Int :=
  let y' := if m ≤ 2 then y - 1 else y
  let era := y' / 400
  let yoe := y' % 400
  let mp := (m + 9) % 12
  let doy := (153 * mp + 2) / 5 + d - 1
  let doe := yoe * 365 + yoe / 4 - yoe / 100 + doy
  (era * 146097 + doe : Int) - 719468

def isLeap (y : Nat) : Bool := y % 4 = 0 && (y % 100 ≠ 0 || y % 400 = 0)

def daysInMonth (y m : Nat) : Nat :=
  if m = 2 then (if isLeap y then 29 else 28)
  else if m = 4 ∨ m = 6 ∨ m = 9 ∨ m = 11 then 30
  else 31

/-- Python `datetime` range/validity check (year 1..9999). -/
def validDate (y m d : Nat) : Bool :=
  1 ≤ y && y ≤ 9999 && 1 ≤ m && m ≤ 12 && 1 ≤ d && d ≤ daysInMonth y m

/-! ### Character-level parsing helpers -/

def digitVal (c : Char) : Option Nat :=
  if c.isDigit then some (c.toNat - 48) else Option.none

def readDigitsAux (acc : Nat) : Nat → List Char → Option (Nat × List Char)
  | 0, cs => some (acc, cs)
  | _ + 1, [] => Option.none
  | n + 1, c :: cs =>
    match digitVal c with
    | some d => readDigitsAux (acc * 10 + d) n cs
    | Option.none => Option.none

/-- Read exactly `n` digits. -/
def readNDigits (n : Nat) (cs : List Char) : Option (Nat × List Char) :=
  readDigitsAux 0 n cs

/-- Greedily take leading digits. -/
def takeDigits : List Char → List Nat × List Char
  | [] => ([], [])
  | c :: cs =>
    match digitVal c with
    | some d => let (ds, rest) := takeDigits cs; (d :: ds, rest)
    | Option.none => ([], c :: cs)

def digitsToNat (ds : List Nat) : Nat := ds.foldl (fun a d => a * 10 + d) 0

def expectChar (c : Char) : List Char → Option (List Char)
  | [] => Option.none
  | x :: xs => if x = c then some xs else Option.none

/-! ### `datetime.fromisoformat` model

Restricted to the extended format accepted across Python versions:
`YYYY-MM-DD[*HH[:MM[:SS[.fff or .ffffff]]][±HH:MM[:SS]]]` where `*` is any
single separator character.  Returns
(naive seconds since epoch as if UTC, microseconds, optional UTC offset
in seconds). -/

/-- Fractional seconds after the dot: exactly 3 or 6 digits. -/
def parseFraction (cs : List Char) : Option (Nat × List Char) :=
  let (ds, rest) := takeDigits cs
  if ds.length = 3 then some (digitsToNat ds * 1000, rest)
  else if ds.length = 6 then some (digitsToNat ds, rest)
  else Option.none

/-- UTC offset suffix `±HH:MM[:SS]`; empty input means no offset. -/
def parseTzSuffix : List Char → Option (Option Int)
  | [] => some Option.none
  | c :: cs =>
    if c = '+' ∨ c = '-' then
      match readNDigits 2 cs with
      | some (h, cs1) =>
        match expectChar ':' cs1 with
        | some cs2 =>
          match readNDigits 2 cs2 with
          | some (mi, cs3) =>
            let secPart : Option (Nat × List Char) :=
              match cs3 with
              | [] => some (0, [])
              | ':' :: cs4 =>
                match readNDigits 2 cs4 with
                | some (s, cs5) => some (s, cs5)
                | Option.none => Option.none
              | _ => Option.none
            match secPart with
            | some (s, rest) =>
              if rest.isEmpty ∧ h ≤ 23 ∧ mi ≤ 59 ∧ s ≤ 59 then
                let off : Int := h * 3600 + mi * 60 + s
                some (some (if c = '-' then -off else off))
              else Option.none
            | Option.none => Option.none
          | Option.none => Option.none
        | Option.none => Option.none
      | Option.none => Option.none
    else Option.none

/-- Time-of-day part `HH[:MM[:SS[.frac]]]` followed by an optional UTC
    offset; returns (seconds within day, microseconds, offset). -/
def parseTimePart (cs : List Char) : Option (Nat × Nat × Option Int) :=
  match readNDigits 2 cs with
  | Option.none => Option.none
  | some (h, cs1) =>
    let rest3 : Option (Nat × Nat × Nat × List Char) :=
      match cs1 with
      | ':' :: cs2 =>
        match readNDigits 2 cs2 with
        | Option.none => Option.none
        | some (mi, cs3) =>
          match cs3 with
          | ':' :: cs4 =>
            match readNDigits 2 cs4 with
            | Option.none => Option.none
            | some (s, cs5) =>
              match cs5 with
              | '.' :: cs6 =>
                match parseFraction cs6 with
                | some (micro, cs7) => some (mi, s, micro, cs7)
                | Option.none => Option.none
              | _ => some (mi, s, 0, cs5)
          | _ => some (mi, 0, 0, cs3)
      | _ => some (0, 0, 0, cs1)
    match rest3 with
    | Option.none => Option.none
    | some (mi, s, micro, csr) =>
      match parseTzSuffix csr with
      | Option.none => Option.none
      | some tz =>
        if h ≤ 23 ∧ mi ≤ 59 ∧ s ≤ 59 then
          some (h * 3600 + mi * 60 + s, micro, tz)
        else Option.none

/-- `datetime.fromisoformat` (restricted grammar, see above). -/
def pyFromIso (cs : List Char) : Option (Int × Nat × Option Int) :=
  match readNDigits 4 cs with
  | Option.none => Option.none
  | some (y, cs1) =>
    match expectChar '-' cs1 with
    | Option.none => Option.none
    | some cs2 =>
      match readNDigits 2 cs2 with
      | Option.none => Option.none
      | some (m, cs3) =>
        match expectChar '-' cs3 with
        | Option.none => Option.none
        | some cs4 =>
          match readNDigits 2 cs4 with
          | Option.none => Option.none
          | some (d, cs5) =>
            if validDate y m d then
              let dayEpoch : Int := daysFromCivil y m d * 86400
              match cs5 with
              | [] => some (dayEpoch, 0, Option.none)
              | _sep :: cs6 =>
                match parseTimePart cs6 with
                | some (secs, micro, tz) => some (dayEpoch + secs, micro, tz)
                | Option.none => Option.none
            else Option.none

/-! ### `datetime.strptime` model for the fixed fallback formats

CPython's `_strptime` matches `%m`/`%d`/`%H`/`%M`/`%S` with one or two
digits (with regex backtracking, modelled by the two-then-one digit
alternative in `fieldThen`), `%Y` with exactly four digits and `%f` with
one to six digits; the full string must be consumed, and out-of-range
calendar fields raise `ValueError` (modelled as parse failure). -/

def fieldThen {α : Type} (lo hi : Nat) (cs : List Char)
    (k : Nat → List Char → Option α) : Option α :=
  (match cs with
   | c1 :: c2 :: rest =>
     match digitVal c1, digitVal c2 with
     | some d1, some d2 =>
       let v := d1 * 10 + d2
       if lo ≤ v ∧ v ≤ hi then k v rest else Option.none
     | _, _ => Option.none
   | _ => Option.none) <|>
  (match cs with
   | c1 :: rest =>
     match digitVal c1 with
     | some d1 => if lo ≤ d1 ∧ d1 ≤ hi then k d1 rest else Option.none
     | Option.none => Option.none
   | [] => Option.none)

def litThen {α : Type} (c : Char) (cs : List Char)
    (k : List Char → Option α) : Option α :=
  match expectChar c cs with
  | some rest => k rest
  | Option.none => Option.none

def yearThen {α : Type} (cs : List Char) (k : Nat → List Char → Option α) :
    Option α :=
  match readNDigits 4 cs with
  | some (y, rest) => k y rest
  | Option.none => Option.none

/-- `%f`: one to six digits, scaled to microseconds; must end the input. -/
def fracEnd (cs : List Char) : Option Nat :=
  let (ds, rest) := takeDigits cs
  if 1 ≤ ds.length ∧ ds.length ≤ 6 ∧ rest.isEmpty then
    some (digitsToNat ds * 10 ^ (6 - ds.length))
  else Option.none

/-- Naive datetime as (seconds since epoch as if UTC, microseconds). -/
def mkNaive (y mo d h mi s micro : Nat) : Option (Int × Nat) :=
  if validDate y mo d then
    some (daysFromCivil y mo d * 86400 + (h * 3600 + mi * 60 + s : Nat), micro)
  else Option.none

/-- `%Y-%m-%d` with separator `sep`, then `%H:%M:%S`, optionally `.%f`. -/
def fmtDateTime (sep : Char) (withFrac : Bool) (cs : List Char) :
    Option (Int × Nat) :=
  yearThen cs fun y cs =>
  litThen '-' cs fun cs =>
  fieldThen 1 12 cs fun mo cs =>
  litThen '-' cs fun cs =>
  fieldThen 1 31 cs fun d cs =>
  litThen sep cs fun cs =>
  fieldThen 0 23 cs fun h cs =>
  litThen ':' cs fun cs =>
  fieldThen 0 59 cs fun mi cs =>
  litThen ':' cs fun cs =>
  fieldThen 0 59 cs fun s cs =>
  if withFrac then
    litThen '.' cs fun cs =>
    match fracEnd cs with
    | some micro => mkNaive y mo d h mi s micro
    | Option.none => Option.none
  else if cs.isEmpty then mkNaive y mo d h mi s 0 else Option.none

/-- `%Y-%m-%d` alone. -/
def fmtDateOnly (cs : List Char) : Option (Int × Nat) :=
  yearThen cs fun y cs =>
  litThen '-' cs fun cs =>
  fieldThen 1 12 cs fun mo cs =>
  litThen '-' cs fun cs =>
  fieldThen 1 31 cs fun d cs =>
  if cs.isEmpty then mkNaive y mo d 0 0 0 0 else Option.none

/-- The fallback format list of `convert_date_to_timestamp`, tried in
    source order on the original (un-`Z`-rewritten) string. -/
def tryFormats (s : String) : Option (Int × Nat) :=
  let cs := s.toList
  fmtDateTime ' ' false cs <|> fmtDateTime ' ' true cs <|>
  fmtDateTime 'T' false cs <|> fmtDateTime 'T' true cs <|>
  fmtDateOnly cs

/-! ### Python string primitives on `List Char`

`str.strip`, `str.replace('Z', '+00:00')`, `str.split(',')` and the
bracket checks are modelled directly on character lists. -/

def stripWs (cs : List Char) : List Char :=
  ((cs.dropWhile (fun c => c.isWhitespace)).reverse.dropWhile
    (fun c => c.isWhitespace)).reverse

/-- `value.replace('Z', '+00:00')` (every occurrence). -/
def replaceZ : List Char → List Char
  | [] => []
  | c :: cs =>
    if c = 'Z' then '+' :: '0' :: '0' :: ':' :: '0' :: '0' :: replaceZ cs
    else c :: replaceZ cs

/-- `str.split(',')`: split on every comma, keeping empty parts. -/
def splitComma : List Char → List (List Char)
  | [] => [[]]
  | c :: cs =>
    if c = ',' then [] :: splitComma cs
    else
      match splitComma cs with
      | [] => [[c]]
      | p :: ps => (c :: p) :: ps

/-- `value.startswith('[') and value.endswith(']')` together with
`value[1:-1]`: the inner characters, when the brackets are in place. -/
def bracketInner (cs : List Char) : Option (List Char) :=
  match cs with
  | '[' :: rest =>
    match rest.reverse with
    | ']' :: mid => some mid.reverse
    | _ => Option.none
  | _ => Option.none

/-! ### Python `float(str)` model

Exact-decimal model of `float()` on finite decimal literals
(optional sign, digits with at most one dot, optional exponent),
with surrounding whitespace stripped.  `inf`/`nan` and digit
underscores are outside the model (no claim exercises them). -/

def parsePyFloatChars (cs0 : List Char) : Option PyFloat :=
  let sgnCs : Int × List Char :=
    match stripWs cs0 with
    | '+' :: r => (1, r)
    | '-' :: r => (-1, r)
    | r => (1, r)
  let sgn := sgnCs.1
  let (ds1, cs1) := takeDigits sgnCs.2
  let fracCs : Option (List Nat) × List Char :=
    match cs1 with
    | '.' :: r => let (d, r') := takeDigits r; (some d, r')
    | r => (Option.none, r)
  let (ds2, cs2) := fracCs
  if ds1.isEmpty && (match ds2 with | some d => d.isEmpty | Option.none => true) then
    Option.none
  else
    let fracDigits : List Nat := match ds2 with
      | some d => d
      | Option.none => []
    let mantissa : Int := sgn * (digitsToNat (ds1 ++ fracDigits) : Int)
    let mkVal : Int → Option PyFloat := fun e10 =>
      if 0 ≤ e10 - (fracDigits.length : Int) then
        some (PyFloat.norm (mantissa * 10 ^ (e10 - fracDigits.length).toNat) 0)
      else
        some (PyFloat.norm mantissa ((fracDigits.length : Int) - e10).toNat)
    match cs2 with
    | [] => mkVal 0
    | 'e' :: r | 'E' :: r =>
      let esCs : Bool × List Char :=
        match r with
        | '+' :: r' => (true, r')
        | '-' :: r' => (false, r')
        | r' => (true, r')
      let (eds, r2) := takeDigits esCs.2
      if eds.isEmpty ∨ ¬ r2.isEmpty then Option.none
      else mkVal (if esCs.1 then (digitsToNat eds : Int) else -(digitsToNat eds : Int))
    | _ => Option.none

def parsePyFloat (s : String) : Option PyFloat :=
  parsePyFloatChars s.toList

/-! ### Python runtime values -/

/-- Shallow model of the Python values flowing through `utils.py`.
`vDt naive micro tz` is a `datetime.datetime` whose calendar fields,
read as if UTC, denote `naive` seconds + `micro` microseconds since the
epoch, with `tz` its `utcoffset()` in seconds (`none` = naive).
`vDate e` is a `datetime.date` whose midnight, read as if UTC, is `e`
seconds since the epoch.  `vIter` is any other iterable (no `tolist`),
`vVecObj` an object with a `tolist()` method (pgvector.Vector). -/
inductive PyVal where
  | vNone
  | vBool (b : Bool)
  | vInt (n : Int)
  | vFloat (q : PyFloat)
  | vStr (s : String)
  | vList (l : List PyVal)
  | vTuple (l : List PyVal)
  | vDt (naive : Int) (micro : Nat) (tz : Option Int)
  | vDate (e : Int)
  | vBytes (s : String)
  | vDict
  | vSet
  | vIter (l : List PyVal)
  | vVecObj (l : List PyVal)

/-- `int(datetime.timestamp())`.  The timestamp is
`secs + micro/1e6` with `secs` the naive calendar fields minus the UTC
offset — for naive datetimes Python consults the local timezone,
modelled by the ambient constant offset `localOff` (seconds east of
UTC) — and `int()` truncates toward zero, so a negative `secs` with a
nonzero fraction gains one. -/
def dtTimestampTrunc (localOff : Int) (naive : Int) (micro : Nat)
    (tz : Option Int) : Int :=
  let secs := naive - tz.getD localOff
  if 0 ≤ secs ∨ micro = 0 then secs else secs + 1

/-- Embedding of `utils.convert_date_to_timestamp`.  Branch order follows
the source: `None`, `int`/`float` (Python `bool` is an `int` subclass),
`datetime`, `date`, then strings — `fromisoformat` on the string with
every `Z` replaced by `+00:00`, then the fallback format list on the
original string; anything else raises `ValueError`. -/
def convert_date_to_timestamp (localOff : Int) : PyVal → Res (Option Int)
  | .vNone => .ok Option.none
  | .vBool b => .ok (some (if b then 1 else 0))
  | .vInt n => .ok (some n)
  | .vFloat q => .ok (some q.trunc)
  | .vDt naive micro tz => .ok (some (dtTimestampTrunc localOff naive micro tz))
  | .vDate e => .ok (some (dtTimestampTrunc localOff e 0 Option.none))
  | .vStr s =>
    match pyFromIso (replaceZ s.toList) with
    | some (naive, micro, tz) =>
      .ok (some (dtTimestampTrunc localOff naive micro tz))
    | Option.none =>
      match tryFormats s with
      | some (naive, micro) =>
        .ok (some (dtTimestampTrunc localOff naive micro Option.none))
      | Option.none => .err
  | _ => .err

/-- `float(x)` on a vector element: numbers pass through (bools as 0/1),
strings are parsed; any other type raises `TypeError`. -/
def pyFloat : PyVal → Option PyFloat
  | .vBool b => some (PyFloat.ofInt (if b then 1 else 0))
  | .vInt n => some (PyFloat.ofInt n)
  | .vFloat q => some q
  | .vStr s => parsePyFloat s
  | _ => Option.none

/-- Embedding of `utils.convert_vector_to_float_array`.  Branch order
follows the source: `None`, `list`, `tuple`, objects with `tolist()`
(pgvector), strings (`[x, y, z]` form only), any other iterable that is
not `str`/`bytes`/`dict`/`set`; anything else raises `ValueError` (and
elementwise coercion failures raise too). -/
def convert_vector_to_float_array : PyVal → Res (Option (List PyFloat))
  | .vNone => .ok Option.none
  | .vList l =>
    match l.mapM pyFloat with
    | some qs => .ok (some qs)
    | Option.none => .err
  | .vTuple l =>
    match l.mapM pyFloat with
    | some qs => .ok (some qs)
    | Option.none => .err
  | .vVecObj l =>
    match l.mapM pyFloat with
    | some qs => .ok (some qs)
    | Option.none => .err
  | .vStr s =>
    match bracketInner (stripWs s.toList) with
    | some inner0 =>
      let inner := stripWs inner0
      if inner.isEmpty then .ok (some [])
      else
        match (splitComma inner).mapM
            (fun part => parsePyFloatChars (stripWs part)) with
        | some qs => .ok (some qs)
        | Option.none => .err
    | Option.none => .err
  | .vIter l =>
    match l.mapM pyFloat with
    | some qs => .ok (some qs)
    | Option.none => .err
  | _ => .err

/-! ### Association-list model of Python dicts

Python dicts are insertion ordered; overwriting an existing key keeps
its position, a fresh key is appended at the end. -/

def lookupAssoc {κ α : Type} [DecidableEq κ] (m : List (κ × α)) (k : κ) :
    Option α :=
  (m.find? (fun p => p.1 = k)).map (fun p => p.2)

def upsertAssoc {κ α : Type} [DecidableEq κ] (m : List (κ × α)) (k : κ) (v : α) :
    List (κ × α) :=
  if m.any (fun p => p.1 = k) then
    m.map (fun p => if p.1 = k then (k, v) else p)
  else m ++ [(k, v)]

/-- `defaultdict(list)`-style append: extend the list at `k` in place,
creating `[v]` at the end if `k` is absent. -/
def appendAssoc {κ α : Type} [DecidableEq κ] (m : List (κ × List α)) (k : κ)
    (v : α) : List (κ × List α) :=
  if m.any (fun p => p.1 = k) then
    m.map (fun p => if p.1 = k then (p.1, p.2 ++ [v]) else p)
  else m ++ [(k, [v])]

def lookupD {κ α : Type} [DecidableEq κ] (m : List (κ × List α)) (k : κ) :
    List α :=
  (lookupAssoc m k).getD []

/-! ### `normalize_document_for_typesense` -/

/-- A schema field; only `name` and `source_type` are read by the
normalization pipeline (the remaining flags affect only provisioning). -/
structure FieldSpec where
  name : String
  source_type : Option String
deriving DecidableEq, Repr

/-- `{field['name']: field for field in schema}`: last value wins, key
keeps its first-occurrence position. -/
def fieldTypes (schema : List FieldSpec) : List (String × FieldSpec) :=
  schema.foldl (fun m f => upsertAssoc m f.name f) []

def optIntToPy : Option Int → PyVal
  | some n => .vInt n
  | Option.none => .vNone

def optVecToPy : Option (List PyFloat) → PyVal
  | some l => .vList (l.map PyVal.vFloat)
  | Option.none => .vNone

/-- Normalization of one field whose value is present: date fields and
vector fields convert with errors nulled; otherwise values that are not
str/int/float/bool/list/None are stringified, with datetimes and dates
converted to epoch seconds instead. -/
def normalizeField (localOff : Int) (pyStrFn : PyVal → String)
    (normalized : List (String × PyVal)) (fname : String) (fcfg : FieldSpec)
    (value : PyVal) : List (String × PyVal) :=
  if fcfg.source_type = some "date" then
    match convert_date_to_timestamp localOff value with
    | .ok v => upsertAssoc normalized fname (optIntToPy v)
    | .err => upsertAssoc normalized fname .vNone
  else if fcfg.source_type = some "vector" then
    match convert_vector_to_float_array value with
    | .ok v => upsertAssoc normalized fname (optVecToPy v)
    | .err => upsertAssoc normalized fname .vNone
  else
    match value with
    | .vStr _ | .vInt _ | .vFloat _ | .vBool _ | .vList _ | .vNone => normalized
    | .vDt naive micro tz =>
      upsertAssoc normalized fname
        (.vInt (dtTimestampTrunc localOff naive micro tz))
    | .vDate e =>
      upsertAssoc normalized fname
        (.vInt (dtTimestampTrunc localOff e 0 Option.none))
    | v => upsertAssoc normalized fname (.vStr (pyStrFn v))

/-- One iteration of the normalization loop body for field `fname` with
config `fcfg` over the current document; a field absent from the
document is skipped. -/
def normalizeStep (localOff : Int) (pyStrFn : PyVal → String)
    (normalized : List (String × PyVal)) (fname : String) (fcfg : FieldSpec) :
    List (String × PyVal) :=
  match lookupAssoc normalized fname with
  | Option.none => normalized
  | some value => normalizeField localOff pyStrFn normalized fname fcfg value

/-- Embedding of `utils.normalize_document_for_typesense`: copy the
document, then for each schema field present in it convert dates,
vectors, and stringify remaining non-plain values.  `pyStrFn` models
Python's `str()` on the values that reach the fallback branch. -/
def normalize_document_for_typesense (localOff : Int) (pyStrFn : PyVal → String)
    (doc : List (String × PyVal)) (schema : List FieldSpec) :
    List (String × PyVal) :=
  (fieldTypes schema).foldl
    (fun normalized p => normalizeStep localOff pyStrFn normalized p.1 p.2) doc

/-! ## Embedding of `sync.py`'s `sync` consumer loop

The database and the Typesense client are external collaborators; their
behaviour is supplied as oracle functions in `Env`.  Upsert documents
are identified by their `record_id` (the transform pipeline's output is
not inspected by the loop's control flow, only whether it raised). -/

inductive Op where
  | INSERT
  | UPDATE
  | DELETE
deriving DecidableEq, Repr

structure QueueEntry where
  id : Nat
  record_id : String
  table_name : String
  operation_type : Op
  created_at : Int
deriving DecidableEq, Repr

structure TableMapping where
  name : String
  collection : String
deriving DecidableEq, Repr

/-- Outcome of one bulk `import_` call: an exception, or a per-document
list of `success` flags. -/
inductive UpsertOutcome where
  | exn
  | results (flags : List Bool)
deriving DecidableEq, Repr

/-- Outcome of one single-document `delete()` call: a response carrying
an `id` key, a truthy-but-malformed response, a 404 exception, or any
other exception. -/
inductive DeleteOutcome where
  | okId
  | malformed
  | notFound404
  | errOther
deriving DecidableEq, Repr

structure Env where
  tables : List TableMapping
  batchSize : Nat
  rowExists : String → String → Bool
  transformOk : String → String → Bool
  fetchOk : String → Bool
  upsertResp : String → List String → UpsertOutcome
  deleteResp : String → String → DeleteOutcome

/-! ### Claiming a batch

`SELECT … WHERE table_name IN (configured names) ORDER BY created_at ASC
LIMIT batch_size`.  The sort is modelled as stable (ties keep queue
order, i.e. ascending identifier in an append-only queue). -/

def insertSorted (e : QueueEntry) : List QueueEntry → List QueueEntry
  | [] => [e]
  | x :: xs =>
    if x.created_at < e.created_at then x :: insertSorted e xs else e :: x :: xs

def sortByCreated (l : List QueueEntry) : List QueueEntry :=
  l.foldr insertSorted []

def knownTable (env : Env) (e : QueueEntry) : Bool :=
  env.tables.any (fun t => t.name = e.table_name)

def claimBatch (env : Env) (queue : List QueueEntry) : List QueueEntry :=
  (sortByCreated (queue.filter (knownTable env))).take env.batchSize

/-! ### Dedup: `{(job.record_id, job.table_name): job for job in jobs}` -/

def jobKey (j : QueueEntry) : String × String := (j.record_id, j.table_name)

def finalOps (jobs : List QueueEntry) : List ((String × String) × QueueEntry) :=
  jobs.foldl (fun m j => upsertAssoc m (jobKey j) j) []

def findTable (env : Env) (tn : String) : Option TableMapping :=
  env.tables.find? (fun t => t.name = tn)

/-! ### Categorize into per-table fetch ids and per-collection deletes -/

def categorizeStep (env : Env)
    (acc : List (String × List String) × List (String × List String))
    (p : (String × String) × QueueEntry) :
    List (String × List String) × List (String × List String) :=
  match findTable env p.1.2 with
  | Option.none => acc
  | some tm =>
    match p.2.operation_type with
    | .INSERT => (appendAssoc acc.1 p.1.2 p.1.1, acc.2)
    | .UPDATE => (appendAssoc acc.1 p.1.2 p.1.1, acc.2)
    | .DELETE => (acc.1, appendAssoc acc.2 tm.collection p.1.1)

def categorize (env : Env) (ops : List ((String × String) × QueueEntry)) :
    List (String × List String) × List (String × List String) :=
  ops.foldl (categorizeStep env) ([], [])

/-! ### Fetch & transform: build the upsert sets, turning vanished rows
into deletes and dropping transform failures -/

def processRecord (env : Env) (tn c : String)
    (acc : List (String × List String) × List (String × List String))
    (rid : String) :
    List (String × List String) × List (String × List String) :=
  if env.rowExists tn rid then
    if env.transformOk tn rid then (appendAssoc acc.1 c rid, acc.2)
    else acc
  else (acc.1, appendAssoc acc.2 c rid)

def processTableIds (env : Env) (tn c : String) (ids : List String)
    (acc : List (String × List String) × List (String × List String)) :
    List (String × List String) × List (String × List String) :=
  ids.foldl (processRecord env tn c) acc

/-- Body of the `for table_name, ids in ids_to_fetch.items()` loop: an
unknown table is skipped (`continue`), a failed row fetch skips the whole
table with a warning, otherwise every id of the table is processed. -/
def tableStep (env : Env)
    (acc : List (String × List String) × List (String × List String))
    (p : String × List String) :
    List (String × List String) × List (String × List String) :=
  match findTable env p.1 with
  | Option.none => acc
  | some tm =>
    if env.fetchOk p.1 then processTableIds env p.1 tm.collection p.2 acc
    else acc

def buildUpserts (env : Env) (idsToFetch : List (String × List String))
    (deletes0 : List (String × List String)) :
    List (String × List String) × List (String × List String) :=
  idsToFetch.foldl (tableStep env) ([], deletes0)

/-! ### Reconciliation against Typesense -/

/-- Upsert loop: returns (`sync_success` so far, `upsert_count`).  The
count is incremented only after a call returns (source line order);
a `False` per-document flag or a call exception clears the flag. -/
def upsertPhase (env : Env) (upserts : List (String × List String)) :
    Bool × Nat :=
  upserts.foldl
    (fun st p =>
      if p.2.isEmpty then st
      else
        match env.upsertResp p.1 p.2 with
        | .exn => (false, st.2)
        | .results flags =>
          (if flags.any (fun f => f = false) then false else st.1,
           st.2 + p.2.length))
    (true, 0)

/-- Per-document delete loop for one collection: returns
(`deleted`, `failed`, `sync_success`).  A 404 counts as deleted; a
malformed response only counts as failed; any other exception counts as
failed and clears `sync_success`. -/
def deleteDocs (env : Env) (c : String) (docs : List String) (s0 : Bool) :
    Nat × Nat × Bool :=
  docs.foldl
    (fun st rid =>
      match env.deleteResp c rid with
      | .okId => (st.1 + 1, st.2.1, st.2.2)
      | .malformed => (st.1, st.2.1 + 1, st.2.2)
      | .notFound404 => (st.1 + 1, st.2.1, st.2.2)
      | .errOther => (st.1, st.2.1 + 1, false))
    (0, 0, s0)

/-- Delete loop over collections: threads `sync_success`, sums
`delete_count`. -/
def deletePhase (env : Env) (deletes : List (String × List String))
    (s0 : Bool) : Bool × Nat :=
  deletes.foldl
    (fun st p =>
      if p.2.isEmpty then st
      else
        let r := deleteDocs env p.1 p.2 st.1
        (r.2.2, st.2 + r.1))
    (s0, 0)

/-- The whole `# Sync to Typesense` block: final `sync_success`,
`upsert_count`, `delete_count`. -/
def reconcile (env : Env) (upserts deletes : List (String × List String)) :
    Bool × Nat × Nat :=
  let u := upsertPhase env upserts
  let d := deletePhase env deletes u.1
  (d.1, u.2, d.2)

/-! ### One batch iteration and the loop -/

/-- The upsert/delete sets a claimed batch produces (dedup → categorize
→ fetch & transform). -/
def batchUpsDels (env : Env) (jobs : List QueueEntry) :
    List (String × List String) × List (String × List String) :=
  let cat := categorize env (finalOps jobs)
  buildUpserts env cat.1 cat.2

structure BatchOut where
  queue : List QueueEntry
  processed : Nat
  keepGoing : Bool
deriving DecidableEq, Repr

/-- `DELETE FROM typesense_sync_queue WHERE id = ANY(job_ids)`: the queue
after acknowledging the claimed batch. -/
def ackedQueue (env : Env) (queue : List QueueEntry) : List QueueEntry :=
  queue.filter
    (fun e => decide (¬ e.id ∈ (claimBatch env queue).map (fun j => j.id)))

/-- One iteration of the `while True` loop: empty claim breaks; a failed
reconciliation rolls back (queue unchanged) and breaks; success deletes
every claimed entry by id (`rowcount` = entries removed) and commits. -/
def processBatch (env : Env) (queue : List QueueEntry) : BatchOut :=
  if (claimBatch env queue).isEmpty then ⟨queue, 0, false⟩
  else if (reconcile env (batchUpsDels env (claimBatch env queue)).1
      (batchUpsDels env (claimBatch env queue)).2).1 then
    ⟨ackedQueue env queue, queue.length - (ackedQueue env queue).length, true⟩
  else ⟨queue, 0, false⟩

/-- The batch loop, fuel-bounded: each committed batch removes at least
one queue entry, so `queue.length + 1` fuel reproduces the unbounded
`while True`. -/
def syncLoop (env : Env) : Nat → List QueueEntry → Nat →
    List QueueEntry × Nat
  | 0, queue, total => (queue, total)
  | fuel + 1, queue, total =>
    let r := processBatch env queue
    if r.keepGoing then syncLoop env fuel r.queue (total + r.processed)
    else (r.queue, total + r.processed)

/-- `sync`'s return value: `True` early when `COUNT(*)` over the whole
queue is zero, otherwise `True` iff `total_processed > 0` after the
loop.  The processed count is printed, not returned. -/
def syncRet (env : Env) (queue : List QueueEntry) : Bool :=
  if queue.length = 0 then true
  else decide (0 < (syncLoop env (queue.length + 1) queue 0).2)

/-- The queue contents when `sync` returns. -/
def syncFinalQueue (env : Env) (queue : List QueueEntry) : List QueueEntry :=
  if queue.length = 0 then queue
  else (syncLoop env (queue.length + 1) queue 0).1

/-- `total_processed` at the end of the run (only ever printed). -/
def processedCount (env : Env) (queue : List QueueEntry) : Nat :=
  if queue.length = 0 then 0
  else (syncLoop env (queue.length + 1) queue 0).2

/-! ## Association-list lemmas -/

theorem lookupAssoc_upsertAssoc {κ α : Type} [DecidableEq κ]
    (m : List (κ × α)) (k k' : κ) (v : α) :
    lookupAssoc (upsertAssoc m k v) k' =
      if k' = k then some v else lookupAssoc m k' := by
  unfold upsertAssoc lookupAssoc
  by_cases hany : (m.any (fun p => p.1 = k)) = true
  · rw [if_pos hany, List.find?_map]
    have hcomp : ((fun p : κ × α => decide (p.1 = k')) ∘
        (fun p : κ × α => if p.1 = k then (k, v) else p)) =
        (fun p : κ × α => decide (p.1 = k')) := by
      funext p; by_cases hp : p.1 = k <;> simp [hp]
    rw [hcomp]
    rcases hf : m.find? (fun p => decide (p.1 = k')) with _ | p0
    · by_cases hk : k' = k
      · subst hk
        rw [List.find?_eq_none] at hf
        rcases List.any_eq_true.1 hany with ⟨p, hp, hpk⟩
        exact absurd hpk (by simpa using hf p hp)
      · simp [hk, lookupAssoc, hf]
    · have hp0 := List.find?_some hf
      simp only [decide_eq_true_eq] at hp0
      by_cases hk : k' = k
      · subst hk; simp [hp0, hf]
      · simp [hk, hf, fun h => hk (hp0 ▸ h : k' = k), hp0]
  · rw [if_neg hany, List.find?_append]
    have hm : m.find? (fun p => decide (p.1 = k)) = Option.none := by
      rw [List.find?_eq_none]
      intro x hx hpx
      exact hany (List.any_eq_true.2 ⟨x, hx, hpx⟩)
    by_cases hk : k' = k
    · subst hk; rw [hm]; simp
    · simp only [List.find?]
      have hne : ¬ k = k' := fun h => hk h.symm
      simp [hne, hk]

theorem lookupD_appendAssoc {κ α : Type} [DecidableEq κ]
    (m : List (κ × List α)) (k k' : κ) (v : α) :
    lookupD (appendAssoc m k v) k' =
      if k' = k then lookupD m k ++ [v] else lookupD m k' := by
  unfold appendAssoc lookupD lookupAssoc
  by_cases hany : (m.any (fun p => p.1 = k)) = true
  · rw [if_pos hany, List.find?_map]
    have hcomp : ((fun p : κ × List α => decide (p.1 = k')) ∘
        (fun p : κ × List α => if p.1 = k then (p.1, p.2 ++ [v]) else p)) =
        (fun p : κ × List α => decide (p.1 = k')) := by
      funext p; by_cases hp : p.1 = k <;> simp [hp]
    rw [hcomp]
    rcases hf : m.find? (fun p => decide (p.1 = k')) with _ | p0
    · by_cases hk : k' = k
      · subst hk
        rw [List.find?_eq_none] at hf
        rcases List.any_eq_true.1 hany with ⟨p, hp, hpk⟩
        exact absurd hpk (by simpa using hf p hp)
      · simp [hk, hf]
    · have hp0 := List.find?_some hf
      simp only [decide_eq_true_eq] at hp0
      by_cases hk : k' = k
      · subst hk; simp [hp0, hf]
      · simp [hk, hf, fun h => hk (hp0 ▸ h : k' = k), hp0]
  · rw [if_neg hany, List.find?_append]
    have hm : m.find? (fun p => decide (p.1 = k)) = Option.none := by
      rw [List.find?_eq_none]
      intro x hx hpx
      exact hany (List.any_eq_true.2 ⟨x, hx, hpx⟩)
    by_cases hk : k' = k
    · subst hk; rw [hm]; simp
    · simp only [List.find?]
      have hne : ¬ k = k' := fun h => hk h.symm
      simp [hne, hk]

theorem map_fst_upsertAssoc {κ α : Type} [DecidableEq κ]
    (m : List (κ × α)) (k : κ) (v : α) :
    (upsertAssoc m k v).map Prod.fst =
      if (m.any (fun p => p.1 = k)) = true then m.map Prod.fst
      else m.map Prod.fst ++ [k] := by
  unfold upsertAssoc
  by_cases hany : (m.any (fun p => p.1 = k)) = true
  · rw [if_pos hany, if_pos hany, List.map_map]
    congr 1
    funext p
    by_cases hp : p.1 = k <;> simp [hp]
  · rw [if_neg hany, if_neg hany, List.map_append]
    rfl

theorem any_fst_iff_mem_keys {κ α : Type} [DecidableEq κ]
    (m : List (κ × α)) (k : κ) :
    (m.any (fun p => p.1 = k)) = true ↔ k ∈ m.map Prod.fst := by
  rw [List.any_eq_true]
  constructor
  · rintro ⟨p, hp, he⟩
    simp only [decide_eq_true_eq] at he
    exact he ▸ List.mem_map_of_mem Prod.fst hp
  · intro h
    rcases List.mem_map.1 h with ⟨p, hp, he⟩
    exact ⟨p, hp, by simp [he]⟩

theorem mem_keys_upsertAssoc {κ α : Type} [DecidableEq κ]
    (m : List (κ × α)) (k k' : κ) (v : α) :
    k' ∈ (upsertAssoc m k v).map Prod.fst ↔
      k' ∈ m.map Prod.fst ∨ k' = k := by
  rw [map_fst_upsertAssoc]
  by_cases hany : (m.any (fun p => p.1 = k)) = true
  · rw [if_pos hany]
    constructor
    · exact Or.inl
    · rintro (h | h)
      · exact h
      · exact h ▸ (any_fst_iff_mem_keys m k).1 hany
  · rw [if_neg hany]; simp

theorem nodup_keys_upsertAssoc {κ α : Type} [DecidableEq κ]
    (m : List (κ × α)) (k : κ) (v : α)
    (h : (m.map Prod.fst).Nodup) :
    ((upsertAssoc m k v).map Prod.fst).Nodup := by
  rw [map_fst_upsertAssoc]
  by_cases hany : (m.any (fun p => p.1 = k)) = true
  · rwa [if_pos hany]
  · rw [if_neg hany]
    rw [List.nodup_append]
    refine ⟨h, List.nodup_singleton k, ?_⟩
    intro x hx hk
    rcases List.mem_singleton.1 hk with rfl
    exact hany ((any_fst_iff_mem_keys m x).2 hx)

/-! ## Dedup lemmas: `finalOps` keeps the last claimed entry per key -/

theorem lookupAssoc_foldl_upsert (jobs : List QueueEntry)
    (m : List ((String × String) × QueueEntry)) (k : String × String) :
    lookupAssoc (jobs.foldl (fun m j => upsertAssoc m (jobKey j) j) m) k =
      (jobs.reverse.find? (fun j => jobKey j = k)).or (lookupAssoc m k) := by
  induction jobs generalizing m with
  | nil => simp
  | cons j js ih =>
    rw [List.foldl_cons, ih, List.reverse_cons, List.find?_append]
    rw [lookupAssoc_upsertAssoc]
    rcases hf : js.reverse.find? (fun j => decide (jobKey j = k)) with _ | e
    · by_cases hk : k = jobKey j
      · simp [Option.or, hk]
      · have hne : ¬ jobKey j = k := fun h => hk h.symm
        simp [Option.or, hk, hne]
    · simp [Option.or]

theorem finalOps_lookup (jobs : List QueueEntry) (k : String × String) :
    lookupAssoc (finalOps jobs) k =
      jobs.reverse.find? (fun j => jobKey j = k) := by
  unfold finalOps
  rw [lookupAssoc_foldl_upsert]
  rcases hx : jobs.reverse.find? (fun j => decide (jobKey j = k)) with _ | e <;>
    simp [hx, lookupAssoc, Option.or]

theorem nodup_keys_foldl_upsert (jobs : List QueueEntry)
    (m : List ((String × String) × QueueEntry))
    (h : (m.map Prod.fst).Nodup) :
    (((jobs.foldl (fun m j => upsertAssoc m (jobKey j) j) m)).map Prod.fst).Nodup := by
  induction jobs generalizing m with
  | nil => exact h
  | cons j js ih =>
    rw [List.foldl_cons]
    exact ih _ (nodup_keys_upsertAssoc m (jobKey j) j h)

theorem nodup_keys_finalOps (jobs : List QueueEntry) :
    ((finalOps jobs).map Prod.fst).Nodup :=
  nodup_keys_foldl_upsert jobs [] List.nodup_nil

theorem mem_keys_foldl_upsert (jobs : List QueueEntry)
    (m : List ((String × String) × QueueEntry)) (k : String × String) :
    k ∈ ((jobs.foldl (fun m j => upsertAssoc m (jobKey j) j) m)).map Prod.fst ↔
      k ∈ m.map Prod.fst ∨ ∃ j ∈ jobs, jobKey j = k := by
  induction jobs generalizing m with
  | nil => simp
  | cons j js ih =>
    rw [List.foldl_cons, ih, mem_keys_upsertAssoc]
    constructor
    · rintro ((h | h) | ⟨j', hj', hk⟩)
      · exact Or.inl h
      · exact Or.inr ⟨j, List.mem_cons_self j js, h.symm⟩
      · exact Or.inr ⟨j', List.mem_cons_of_mem j hj', hk⟩
    · rintro (h | ⟨j', hj', hk⟩)
      · exact Or.inl (Or.inl h)
      · rcases List.mem_cons.1 hj' with rfl | hj''
        · exact Or.inl (Or.inr hk.symm)
        · exact Or.inr ⟨j', hj'', hk⟩

theorem mem_keys_finalOps (jobs : List QueueEntry) (k : String × String) :
    k ∈ (finalOps jobs).map Prod.fst ↔ ∃ j ∈ jobs, jobKey j = k := by
  have h := mem_keys_foldl_upsert jobs [] k
  simpa [finalOps] using h

/-- The last entry of a `created_at`-ascending batch for a given key is
a maximiser of `created_at` among that key's entries. -/
theorem reverse_find_is_max (jobs : List QueueEntry)
    (h : jobs.Pairwise (fun a b => a.created_at ≤ b.created_at))
    (k : String × String) (e : QueueEntry)
    (hf : jobs.reverse.find? (fun j => jobKey j = k) = some e) :
    e ∈ jobs ∧ jobKey e = k ∧
      ∀ e' ∈ jobs, jobKey e' = k → e'.created_at ≤ e.created_at := by
  induction jobs with
  | nil => simp at hf
  | cons j js ih =>
    rw [List.reverse_cons, List.find?_append] at hf
    have hpc := List.pairwise_cons.1 h
    rcases hjs : js.reverse.find? (fun j => decide (jobKey j = k)) with _ | e0
    · rw [hjs] at hf
      simp only [Option.or, List.find?] at hf
      by_cases hjk : jobKey j = k
      · simp [hjk] at hf
        subst hf
        refine ⟨List.mem_cons_self j js, hjk, ?_⟩
        intro e' he' hk'
        rcases List.mem_cons.1 he' with rfl | he''
        · exact le_refl _
        · exfalso
          have := (List.find?_eq_none.1 hjs) e' (List.mem_reverse.2 he'')
          exact this (by simpa using hk')
      · simp [hjk] at hf
    · rw [hjs] at hf
      simp only [Option.or] at hf
      rcases Option.some.inj hf with rfl
      rcases ih hpc.2 hjs with ⟨hmem, hkey, hmax⟩
      refine ⟨List.mem_cons_of_mem j hmem, hkey, ?_⟩
      intro e' he' hk'
      rcases List.mem_cons.1 he' with rfl | he''
      · exact hpc.1 e0 hmem
      · exact hmax e' he'' hk'

theorem head?_filter_eq_find? {α : Type} (p : α → Bool) (l : List α) :
    (l.filter p).head? = l.find? p := by
  induction l with
  | nil => rfl
  | cons a l ih =>
    by_cases hp : p a = true
    · rw [List.filter_cons_of_pos hp, List.find?_cons_of_pos _ hp]
      rfl
    · rw [List.filter_cons_of_neg (by simpa using hp),
        List.find?_cons_of_neg _ (by simpa using hp)]
      exact ih

theorem getLast?_filter_eq_reverse_find? {α : Type} (p : α → Bool)
    (l : List α) :
    (l.filter p).getLast? = l.reverse.find? p := by
  rw [List.getLast?_eq_head?_reverse, ← List.filter_reverse,
    head?_filter_eq_find?]

/-- Sample registry and all-success oracle used by concrete witnesses. -/
def sampleTables : List TableMapping := [⟨"users", "users_c"⟩]

def envAllOk : Env where
  tables := sampleTables
  batchSize := 100
  rowExists := fun _ _ => true
  transformOk := fun _ _ => true
  fetchOk := fun _ => true
  upsertResp := fun _ _ => .results [true]
  deleteResp := fun _ _ => .okId

/-- Claim C1: the dedup step of a claimed batch (visited in ascending
`created_at` order) keeps exactly one queue entry per
`(record_id, table_name)` pair — the entry with the greatest
`created_at`, ties resolved by later claim-order position (it is the
last entry of the batch with that key) — and in particular a batch
`[INSERT@t1, UPDATE@t2, DELETE@t3]` (`t1 ≤ t2 ≤ t3`) for one record of a
known table routes the record to the delete list and produces no fetch
id, hence no upsert. -/
theorem dedup_last_write_wins (jobs : List QueueEntry)
    (hsort : jobs.Pairwise (fun a b => a.created_at ≤ b.created_at)) :
    (((finalOps jobs).map Prod.fst).Nodup ∧
      ∀ k, k ∈ (finalOps jobs).map Prod.fst ↔ ∃ j ∈ jobs, jobKey j = k) ∧
    (∀ k e, lookupAssoc (finalOps jobs) k = some e →
      e ∈ jobs ∧ jobKey e = k ∧
      (jobs.filter (fun j => jobKey j = k)).getLast? = some e ∧
      ∀ e' ∈ jobs, jobKey e' = k → e'.created_at ≤ e.created_at) ∧
    (∀ (env : Env) (rid tn : String) (tm : TableMapping)
        (i1 i2 i3 : Nat) (t1 t2 t3 : Int), t1 ≤ t2 → t2 ≤ t3 →
      findTable env tn = some tm →
      categorize env (finalOps
        [⟨i1, rid, tn, .INSERT, t1⟩, ⟨i2, rid, tn, .UPDATE, t2⟩,
         ⟨i3, rid, tn, .DELETE, t3⟩]) =
        ([], [(tm.collection, [rid])])) := by
  refine ⟨⟨nodup_keys_finalOps jobs, fun k => mem_keys_finalOps jobs k⟩,
    ?_, ?_⟩
  · intro k e hlk
    rw [finalOps_lookup] at hlk
    rcases reverse_find_is_max jobs hsort k e hlk with ⟨hmem, hkey, hmax⟩
    refine ⟨hmem, hkey, ?_, hmax⟩
    rw [getLast?_filter_eq_reverse_find?]
    exact hlk
  · intro env rid tn tm i1 i2 i3 t1 t2 t3 h12 h23 hft
    simp [finalOps, upsertAssoc, jobKey, categorize, categorizeStep, hft,
      appendAssoc, lookupAssoc]

/-- Witness for C1 at a concrete three-entry batch. -/
theorem dedup_last_write_wins_witness :
    categorize envAllOk (finalOps
      [⟨1, "r", "users", .INSERT, 10⟩, ⟨2, "r", "users", .UPDATE, 20⟩,
       ⟨3, "r", "users", .DELETE, 30⟩]) =
      ([], [("users_c", ["r"])]) :=
  (dedup_last_write_wins
      [⟨1, "r", "users", .INSERT, 10⟩, ⟨2, "r", "users", .UPDATE, 20⟩,
       ⟨3, "r", "users", .DELETE, 30⟩]
      (by decide)).2.2 envAllOk "r" "users" ⟨"users", "users_c"⟩
    1 2 3 10 20 30 (by decide) (by decide) (by rfl)

/-! ## Reconciliation characterizations -/

/-- Success of one bulk upsert call: no exception and no `False` flag. -/
def upsertCallOk (env : Env) (c : String) (docs : List String) : Bool :=
  match env.upsertResp c docs with
  | .exn => false
  | .results flags => ! flags.any (fun f => f = false)

theorem upsertPhase_foldl_success (env : Env)
    (ups : List (String × List String)) (b : Bool) (n : Nat) :
    (ups.foldl
      (fun st p =>
        if p.2.isEmpty then st
        else
          match env.upsertResp p.1 p.2 with
          | .exn => (false, st.2)
          | .results flags =>
            (if flags.any (fun f => f = false) then false else st.1,
             st.2 + p.2.length))
      (b, n)).1 =
    (b && ups.all (fun p => p.2.isEmpty || upsertCallOk env p.1 p.2)) := by
  induction ups generalizing b n with
  | nil => simp
  | cons p rest ih =>
    rw [List.foldl_cons]
    by_cases he : p.2.isEmpty
    · rw [if_pos he, ih, List.all_cons, he]
      simp
    · rw [if_neg he]
      rcases hr : env.upsertResp p.1 p.2 with _ | flags
      · simp only [ih, List.all_cons]
        have hc : upsertCallOk env p.1 p.2 = false := by
          simp [upsertCallOk, hr]
        simp [hc, he]
      · by_cases hfl : (flags.any (fun f => f = false)) = true
        · simp only [hfl, if_pos, ih, List.all_cons]
          have hc : upsertCallOk env p.1 p.2 = false := by
            simp only [upsertCallOk, hr, hfl, Bool.not_true]
          simp [hc, he]
        · simp only [hfl, if_neg, ih, List.all_cons]
          have hc : upsertCallOk env p.1 p.2 = true := by
            simp only [upsertCallOk, hr, Bool.eq_false_iff.2 hfl,
              Bool.not_false]
          simp [hc, he]

theorem upsertPhase_success (env : Env) (ups : List (String × List String)) :
    (upsertPhase env ups).1 =
      ups.all (fun p => p.2.isEmpty || upsertCallOk env p.1 p.2) := by
  have h := upsertPhase_foldl_success env ups true 0
  simpa [upsertPhase] using h

theorem deleteDocs_foldl (env : Env) (c : String) (docs : List String)
    (init : Nat × Nat × Bool) :
    (docs.foldl
      (fun st rid =>
        match env.deleteResp c rid with
        | .okId => (st.1 + 1, st.2.1, st.2.2)
        | .malformed => (st.1, st.2.1 + 1, st.2.2)
        | .notFound404 => (st.1 + 1, st.2.1, st.2.2)
        | .errOther => (st.1, st.2.1 + 1, false))
      init) =
    (init.1 + (docs.filter (fun rid => env.deleteResp c rid = .okId ∨
        env.deleteResp c rid = .notFound404)).length,
     init.2.1 + (docs.filter (fun rid => env.deleteResp c rid = .malformed ∨
        env.deleteResp c rid = .errOther)).length,
     init.2.2 && docs.all (fun rid => env.deleteResp c rid ≠ .errOther)) := by
  induction docs generalizing init with
  | nil => simp
  | cons rid rest ih =>
    rw [List.foldl_cons]
    rcases hr : env.deleteResp c rid with _ | _ | _ | _ <;>
      · rw [ih]
        simp [List.filter_cons, hr, Nat.add_assoc, Nat.add_comm,
          Nat.add_left_comm]

theorem deleteDocs_spec (env : Env) (c : String) (docs : List String)
    (s0 : Bool) :
    deleteDocs env c docs s0 =
      ((docs.filter (fun rid => env.deleteResp c rid = .okId ∨
          env.deleteResp c rid = .notFound404)).length,
       (docs.filter (fun rid => env.deleteResp c rid = .malformed ∨
          env.deleteResp c rid = .errOther)).length,
       s0 && docs.all (fun rid => env.deleteResp c rid ≠ .errOther)) := by
  have h := deleteDocs_foldl env c docs (0, 0, s0)
  simpa [deleteDocs] using h

/-- Success of the per-document delete loop for one collection: no
response raised a non-404 exception. -/
def deleteCallOk (env : Env) (c : String) (docs : List String) : Bool :=
  docs.all (fun rid => env.deleteResp c rid ≠ .errOther)

theorem deletePhase_foldl_success (env : Env)
    (dels : List (String × List String)) (st0 : Bool × Nat) :
    (dels.foldl
      (fun st p =>
        if p.2.isEmpty then st
        else
          let r := deleteDocs env p.1 p.2 st.1
          (r.2.2, st.2 + r.1))
      st0).1 =
    (st0.1 && dels.all (fun p => p.2.isEmpty || deleteCallOk env p.1 p.2)) := by
  induction dels generalizing st0 with
  | nil => simp
  | cons p rest ih =>
    rw [List.foldl_cons, ih]
    by_cases he : p.2.isEmpty
    · simp [he]
    · simp only [if_neg he]
      simp [deleteDocs_spec, List.all_cons, deleteCallOk, he, Bool.and_assoc]

theorem deletePhase_success (env : Env)
    (dels : List (String × List String)) (s0 : Bool) :
    (deletePhase env dels s0).1 =
      (s0 && dels.all (fun p => p.2.isEmpty || deleteCallOk env p.1 p.2)) := by
  have h := deletePhase_foldl_success env dels (s0, 0)
  simpa [deletePhase] using h

theorem reconcile_success (env : Env)
    (ups dels : List (String × List String)) :
    (reconcile env ups dels).1 =
      (ups.all (fun p => p.2.isEmpty || upsertCallOk env p.1 p.2) &&
       dels.all (fun p => p.2.isEmpty || deleteCallOk env p.1 p.2)) := by
  unfold reconcile
  rw [deletePhase_success, upsertPhase_success]

/-- Claim C2: if reconciliation fails for any document of the claimed
batch — a per-document upsert `success` flag of `False`, an upsert call
exception, or a delete call failing with anything other than not-found —
the whole batch transaction rolls back: no queue entry of the batch is
deleted (the queue is unchanged) and the consumer loop terminates
without advancing to a next batch. -/
theorem batch_failure_rolls_back (env : Env) (queue : List QueueEntry)
    (hfail :
      (∃ p ∈ (batchUpsDels env (claimBatch env queue)).1, p.2 ≠ [] ∧
        (env.upsertResp p.1 p.2 = .exn ∨
         ∃ fl, env.upsertResp p.1 p.2 = .results fl ∧ false ∈ fl)) ∨
      (∃ p ∈ (batchUpsDels env (claimBatch env queue)).2, ∃ rid ∈ p.2,
        env.deleteResp p.1 rid = .errOther)) :
    processBatch env queue = ⟨queue, 0, false⟩ ∧
    ∀ fuel total, syncLoop env (fuel + 1) queue total = (queue, total) := by
  have hrec : (reconcile env (batchUpsDels env (claimBatch env queue)).1
      (batchUpsDels env (claimBatch env queue)).2).1 = false := by
    rw [reconcile_success]
    rcases hfail with ⟨p, hp, hne, hbad⟩ | ⟨p, hp, rid, hrid, hbad⟩
    · have hall : (batchUpsDels env (claimBatch env queue)).1.all
          (fun p => p.2.isEmpty || upsertCallOk env p.1 p.2) = false := by
        rw [Bool.eq_false_iff]
        intro hall
        have hthis := List.all_eq_true.1 hall p hp
        rcases hbad with hexn | ⟨fl, hres, hfalse⟩
        · simp [upsertCallOk, hexn, hne] at hthis
        · have hany : (fl.any (fun f => f = false)) = true :=
            List.any_eq_true.2 ⟨false, hfalse, by simp⟩
          simp [upsertCallOk, hres, hany, hne] at hthis
          exact hthis hfalse
      simp [hall]
    · have hall : (batchUpsDels env (claimBatch env queue)).2.all
          (fun p => p.2.isEmpty || deleteCallOk env p.1 p.2) = false := by
        rw [Bool.eq_false_iff]
        intro hall
        have hthis := List.all_eq_true.1 hall p hp
        have hne : p.2 ≠ [] := by
          intro hnil
          rw [hnil] at hrid
          exact absurd hrid (List.not_mem_nil rid)
        have hie : p.2.isEmpty = false := by
          cases h2 : p.2 with
          | nil => exact absurd h2 hne
          | cons a l => rfl
        rw [hie, Bool.false_or] at hthis
        simp only [deleteCallOk] at hthis
        have hd := List.all_eq_true.1 hthis rid hrid
        simp [hbad] at hd
      simp [hall]
  have hpb : processBatch env queue = ⟨queue, 0, false⟩ := by
    unfold processBatch
    by_cases hje : (claimBatch env queue).isEmpty
    · rw [if_pos hje]
    · rw [if_neg hje, hrec]
      simp
  refine ⟨hpb, ?_⟩
  intro fuel total
  simp [syncLoop, hpb]

def envUpFail : Env :=
  { envAllOk with upsertResp := fun _ _ => .results [false] }

/-- Witness for C2: a one-entry batch whose upsert reports a `False`
success flag is rolled back. -/
theorem batch_failure_rolls_back_witness :
    processBatch envUpFail [⟨1, "a", "users", .INSERT, 0⟩] =
      ⟨[⟨1, "a", "users", .INSERT, 0⟩], 0, false⟩ :=
  (batch_failure_rolls_back envUpFail [⟨1, "a", "users", .INSERT, 0⟩]
    (Or.inl ⟨("users_c", ["a"]), by decide, by decide,
      Or.inr ⟨[false], rfl, by decide⟩⟩)).1

def envDelMalformed : Env :=
  { envAllOk with deleteResp := fun _ _ => .malformed }

/-- Counterexample to C5 as stated: a malformed delete response (truthy
but without an `id` key) is a delete failure other than not-found, yet
the batch is NOT marked failed — it commits and acknowledges the entry. -/
theorem delete_malformed_commits :
    envDelMalformed.deleteResp "users_c" "9" = .malformed ∧
    processBatch envDelMalformed [⟨1, "9", "users", .DELETE, 0⟩] =
      ⟨[], 1, true⟩ :=
  ⟨rfl, by decide⟩

/-- Claim C5 (amended): deletes are processed per document; a not-found
(404) response is counted as a success indistinguishable from deleting
an existing document; a delete call raising anything other than
not-found clears the batch success flag; but a malformed delete
response is only logged and counted as failed — it leaves the success
flag unchanged.  The deleted count tallies exactly the ok/404 outcomes. -/
theorem delete_semantics (env : Env) (c : String) (docs : List String)
    (s0 : Bool) :
    ((∀ rid ∈ docs, env.deleteResp c rid = .okId ∨
        env.deleteResp c rid = .notFound404) →
      deleteDocs env c docs s0 = (docs.length, 0, s0)) ∧
    (∀ rid ∈ docs, env.deleteResp c rid = .errOther →
      (deleteDocs env c docs s0).2.2 = false) ∧
    ((∀ rid ∈ docs, env.deleteResp c rid ≠ .errOther) →
      (deleteDocs env c docs s0).2.2 = s0) ∧
    (deleteDocs env c docs s0).1 =
      (docs.filter (fun rid => env.deleteResp c rid = .okId ∨
        env.deleteResp c rid = .notFound404)).length := by
  refine ⟨?_, ?_, ?_, ?_⟩
  · intro hok
    rw [deleteDocs_spec]
    have h1 : docs.filter (fun rid => env.deleteResp c rid = .okId ∨
        env.deleteResp c rid = .notFound404) = docs := by
      apply List.filter_eq_self.2
      intro rid hrid
      simpa using hok rid hrid
    have h2 : docs.filter (fun rid => env.deleteResp c rid = .malformed ∨
        env.deleteResp c rid = .errOther) = [] := by
      apply List.filter_eq_nil_iff.2
      intro rid hrid
      rcases hok rid hrid with h | h <;> simp [h]
    have h3 : docs.all (fun rid => env.deleteResp c rid ≠ .errOther) = true := by
      apply List.all_eq_true.2
      intro rid hrid
      rcases hok rid hrid with h | h <;> simp [h]
    rw [h1, h2, h3]
    simp
  · intro rid hrid hbad
    rw [deleteDocs_spec]
    have h3 : docs.all (fun rid => env.deleteResp c rid ≠ .errOther) = false := by
      rw [Bool.eq_false_iff]
      intro hall
      have := List.all_eq_true.1 hall rid hrid
      simp [hbad] at this
    simp only [deleteDocs_spec]
    rw [h3, Bool.and_false]
  · intro hok
    simp only [deleteDocs_spec]
    have h3 : docs.all (fun rid => env.deleteResp c rid ≠ .errOther) = true := by
      apply List.all_eq_true.2
      intro rid hrid
      simpa using hok rid hrid
    rw [h3, Bool.and_true]
  · rw [deleteDocs_spec]

/-- Witness for C5's amended theorem: two existing documents and one
already-absent document delete as three successes. -/
theorem delete_semantics_witness :
    deleteDocs envAllOk "users_c" ["x", "y", "z"] true = (3, 0, true) :=
  (delete_semantics envAllOk "users_c" ["x", "y", "z"] true).1 (by decide)

/-! ## Claim-query lemmas -/

theorem mem_insertSorted (e a : QueueEntry) (l : List QueueEntry) :
    a ∈ insertSorted e l ↔ a = e ∨ a ∈ l := by
  induction l with
  | nil => simp [insertSorted]
  | cons x xs ih =>
    unfold insertSorted
    by_cases h : x.created_at < e.created_at
    · rw [if_pos h]
      rw [List.mem_cons, ih, List.mem_cons]
      tauto
    · rw [if_neg h]
      rw [List.mem_cons, List.mem_cons]

theorem mem_sortByCreated (a : QueueEntry) (l : List QueueEntry) :
    a ∈ sortByCreated l ↔ a ∈ l := by
  induction l with
  | nil => simp [sortByCreated]
  | cons x xs ih =>
    unfold sortByCreated at ih ⊢
    rw [List.foldr_cons, mem_insertSorted, ih, List.mem_cons]

theorem mem_claimBatch (env : Env) (queue : List QueueEntry)
    (j : QueueEntry) (h : j ∈ claimBatch env queue) :
    j ∈ queue ∧ knownTable env j = true := by
  unfold claimBatch at h
  have h1 := List.mem_of_mem_take h
  rw [mem_sortByCreated] at h1
  exact ⟨(List.mem_filter.1 h1).1, (List.mem_filter.1 h1).2⟩

theorem unknown_table_survives_loop (env : Env) (e : QueueEntry)
    (hunk : knownTable env e = false) (fuel : Nat) :
    ∀ (queue : List QueueEntry) (total : Nat),
      (queue.map (fun x => x.id)).Nodup → e ∈ queue →
      e ∈ (syncLoop env fuel queue total).1 := by
  induction fuel with
  | zero => intro queue total _ hmem; exact hmem
  | succ n ih =>
    intro queue total hnodup hmem
    have hacked : e ∈ ackedQueue env queue := by
      unfold ackedQueue
      rw [List.mem_filter]
      refine ⟨hmem, ?_⟩
      simp only [decide_eq_true_eq, List.mem_map]
      rintro ⟨j, hj, hje⟩
      rcases mem_claimBatch env queue j hj with ⟨hjq, hjk⟩
      have : j = e := List.inj_on_of_nodup_map hnodup hjq hmem hje
      rw [this, hunk] at hjk
      exact Bool.false_ne_true hjk
    have hsub : (ackedQueue env queue).Sublist queue := List.filter_sublist _
    have hnodup' : ((ackedQueue env queue).map (fun x => x.id)).Nodup :=
      List.Nodup.sublist (List.Sublist.map _ hsub) hnodup
    unfold syncLoop processBatch
    by_cases hje : (claimBatch env queue).isEmpty
    · rw [if_pos hje]
      exact hmem
    · rw [if_neg hje]
      by_cases hrec : (reconcile env
          (batchUpsDels env (claimBatch env queue)).1
          (batchUpsDels env (claimBatch env queue)).2).1
      · rw [if_pos hrec]
        exact ih (ackedQueue env queue) (total + _) hnodup' hacked
      · rw [if_neg hrec]
        exact hmem

/-- Counterexample to C3 as stated: a queue entry whose `table_name` is
not in the registry is never claimed (the claim query filters on the
configured table names), so it is not warned about and not deleted at
the end of any batch — `sync` leaves it queued and returns `False`. -/
theorem unknown_table_entry_left_queued :
    syncFinalQueue envAllOk [⟨1, "7", "orders", .INSERT, 0⟩] =
      [⟨1, "7", "orders", .INSERT, 0⟩] ∧
    syncRet envAllOk [⟨1, "7", "orders", .INSERT, 0⟩] = false := by
  decide

/-- Claim C3 (amended): a queue entry referencing a table that is not in
the current run's mapping is never claimed, because the claim query
filters on the configured table names; it is applied to no collection
and — contrary to the claim — never acknowledged: it survives the whole
run in the queue (the in-loop unknown-table branch is unreachable). -/
theorem unknown_table_never_acked (env : Env) (queue : List QueueEntry)
    (e : QueueEntry) (hnodup : (queue.map (fun x => x.id)).Nodup)
    (hmem : e ∈ queue) (hunk : knownTable env e = false) :
    e ∈ syncFinalQueue env queue := by
  unfold syncFinalQueue
  by_cases hlen : queue.length = 0
  · rw [if_pos hlen]
    exact hmem
  · rw [if_neg hlen]
    exact unknown_table_survives_loop env e hunk _ queue 0 hnodup hmem

/-- Witness for C3's amended theorem: with one known and one unknown
entry queued, the unknown one survives the run. -/
theorem unknown_table_never_acked_witness :
    (⟨2, "7", "orders", .INSERT, 1⟩ : QueueEntry) ∈
      syncFinalQueue envAllOk
        [⟨1, "a", "users", .INSERT, 0⟩, ⟨2, "7", "orders", .INSERT, 1⟩] :=
  unknown_table_never_acked envAllOk
    [⟨1, "a", "users", .INSERT, 0⟩, ⟨2, "7", "orders", .INSERT, 1⟩]
    ⟨2, "7", "orders", .INSERT, 1⟩ (by decide) (by decide) (by decide)

theorem syncLoop_total_le (env : Env) (fuel : Nat) :
    ∀ (queue : List QueueEntry) (total : Nat),
      (syncLoop env fuel queue total).2 ≤ total + queue.length := by
  induction fuel with
  | zero => intro queue total; exact Nat.le_add_right total queue.length
  | succ n ih =>
    intro queue total
    unfold syncLoop processBatch
    by_cases hje : (claimBatch env queue).isEmpty
    · rw [if_pos hje]
      exact Nat.le_add_right total queue.length
    · rw [if_neg hje]
      by_cases hrec : (reconcile env
          (batchUpsDels env (claimBatch env queue)).1
          (batchUpsDels env (claimBatch env queue)).2).1
      · rw [if_pos hrec]
        have hlen : (ackedQueue env queue).length ≤ queue.length :=
          List.length_filter_le _ _
        calc (syncLoop env n (ackedQueue env queue)
              (total + (queue.length - (ackedQueue env queue).length))).2
            ≤ total + (queue.length - (ackedQueue env queue).length) +
                (ackedQueue env queue).length := ih _ _
          _ = total + queue.length := by
              rw [Nat.add_assoc, Nat.sub_add_cancel hlen]
      · rw [if_neg hrec]
        exact Nat.le_add_right total queue.length

/-- Counterexample to C9 as stated: two runs that process different
numbers of queue entries (1 versus 2) produce identical return values,
so `sync`'s return value cannot carry the count of processed entries —
the count is only printed. -/
theorem sync_return_does_not_carry_count :
    processedCount envAllOk [⟨1, "a", "users", .INSERT, 0⟩] = 1 ∧
    processedCount envAllOk
      [⟨1, "a", "users", .INSERT, 0⟩, ⟨2, "b", "users", .INSERT, 1⟩] = 2 ∧
    syncRet envAllOk [⟨1, "a", "users", .INSERT, 0⟩] =
      syncRet envAllOk
        [⟨1, "a", "users", .INSERT, 0⟩, ⟨2, "b", "users", .INSERT, 1⟩] := by
  decide

/-- Claim C9 (amended): `sync` returns only a boolean to its caller —
`True` when the queue is empty at startup or at least one entry was
processed, `False` otherwise; the count of processed entries (which
never exceeds the initial queue depth) is printed, not returned. -/
theorem sync_returns_only_boolean (env : Env) (queue : List QueueEntry) :
    (syncRet env queue = true ↔
      (queue = [] ∨ 0 < processedCount env queue)) ∧
    processedCount env queue ≤ queue.length := by
  constructor
  · unfold syncRet processedCount
    by_cases hlen : queue.length = 0
    · rw [if_pos hlen, if_pos hlen]
      simp [List.length_eq_zero.1 hlen]
    · rw [if_neg hlen, if_neg hlen]
      have hne : queue ≠ [] := fun h => hlen (h ▸ rfl)
      simp [hne]
  · unfold processedCount
    by_cases hlen : queue.length = 0
    · rw [if_pos hlen]
      exact Nat.zero_le _
    · rw [if_neg hlen]
      have h := syncLoop_total_le env (queue.length + 1) queue 0
      simpa using h

/-! ## Fetch-and-transform characterizations -/

/-- The record ids one `(table, ids)` pair contributes to the upsert set
of collection `c`: its existing rows whose transform succeeded. -/
def upsContrib (env : Env) (c : String) (p : String × List String) :
    List String :=
  match findTable env p.1 with
  | Option.none => []
  | some tm =>
    if env.fetchOk p.1 then
      if c = tm.collection then
        p.2.filter (fun rid => env.rowExists p.1 rid && env.transformOk p.1 rid)
      else []
    else []

/-- The record ids one `(table, ids)` pair adds to the delete set of
collection `c`: its vanished rows. -/
def delsContrib (env : Env) (c : String) (p : String × List String) :
    List String :=
  match findTable env p.1 with
  | Option.none => []
  | some tm =>
    if env.fetchOk p.1 then
      if c = tm.collection then
        p.2.filter (fun rid => ! env.rowExists p.1 rid)
      else []
    else []

theorem processTableIds_lookup (env : Env) (tn c : String)
    (ids : List String) :
    ∀ (acc : List (String × List String) × List (String × List String))
      (c' : String),
      lookupD (processTableIds env tn c ids acc).1 c' =
        lookupD acc.1 c' ++ (if c' = c then
          ids.filter (fun rid => env.rowExists tn rid && env.transformOk tn rid)
          else []) ∧
      lookupD (processTableIds env tn c ids acc).2 c' =
        lookupD acc.2 c' ++ (if c' = c then
          ids.filter (fun rid => ! env.rowExists tn rid) else []) := by
  induction ids with
  | nil =>
    intro acc c'
    constructor <;> · by_cases hc : c' = c <;> simp [processTableIds, hc]
  | cons rid rest ih =>
    intro acc c'
    unfold processTableIds at ih ⊢
    rw [List.foldl_cons]
    by_cases hE : env.rowExists tn rid
    · by_cases hT : env.transformOk tn rid
      · have hpr : processRecord env tn c acc rid =
            (appendAssoc acc.1 c rid, acc.2) := by
          unfold processRecord
          rw [if_pos hE, if_pos hT]
        rw [hpr]
        rcases ih (appendAssoc acc.1 c rid, acc.2) c' with ⟨h1, h2⟩
        constructor
        · rw [h1]
          show lookupD (appendAssoc acc.1 c rid) c' ++ _ = _
          rw [lookupD_appendAssoc]
          by_cases hc : c' = c
          · rw [if_pos hc, if_pos hc, if_pos hc, List.filter_cons_of_pos
              (by simp [hE, hT]), List.append_assoc, List.singleton_append,
              hc]
          · rw [if_neg hc, if_neg hc, if_neg hc]
        · rw [h2]
          show lookupD acc.2 c' ++ _ = _
          by_cases hc : c' = c
          · rw [if_pos hc, if_pos hc, List.filter_cons_of_neg (by simp [hE])]
          · rw [if_neg hc, if_neg hc]
      · have hpr : processRecord env tn c acc rid = acc := by
          unfold processRecord
          rw [if_pos hE, if_neg hT]
        rw [hpr]
        rcases ih acc c' with ⟨h1, h2⟩
        constructor
        · rw [h1]
          by_cases hc : c' = c
          · rw [if_pos hc, if_pos hc, List.filter_cons_of_neg
              (by simp [hE, hT])]
          · rw [if_neg hc, if_neg hc]
        · rw [h2]
          by_cases hc : c' = c
          · rw [if_pos hc, if_pos hc, List.filter_cons_of_neg (by simp [hE])]
          · rw [if_neg hc, if_neg hc]
    · have hpr : processRecord env tn c acc rid =
          (acc.1, appendAssoc acc.2 c rid) := by
        unfold processRecord
        rw [if_neg hE]
      rw [hpr]
      rcases ih (acc.1, appendAssoc acc.2 c rid) c' with ⟨h1, h2⟩
      constructor
      · rw [h1]
        show lookupD acc.1 c' ++ _ = _
        by_cases hc : c' = c
        · rw [if_pos hc, if_pos hc, List.filter_cons_of_neg
            (by simp [hE])]
        · rw [if_neg hc, if_neg hc]
      · rw [h2]
        show lookupD (appendAssoc acc.2 c rid) c' ++ _ = _
        rw [lookupD_appendAssoc]
        by_cases hc : c' = c
        · rw [if_pos hc, if_pos hc, if_pos hc, List.filter_cons_of_pos
            (by simp [hE]), List.append_assoc, List.singleton_append, hc]
        · rw [if_neg hc, if_neg hc, if_neg hc]

theorem buildUpserts_foldl_lookup (env : Env)
    (idsF : List (String × List String)) :
    ∀ (acc : List (String × List String) × List (String × List String))
      (c' : String),
      lookupD (idsF.foldl (tableStep env) acc).1 c' =
        lookupD acc.1 c' ++ (idsF.map (upsContrib env c')).flatten ∧
      lookupD (idsF.foldl (tableStep env) acc).2 c' =
        lookupD acc.2 c' ++ (idsF.map (delsContrib env c')).flatten := by
  induction idsF with
  | nil => intro acc c'; constructor <;> simp
  | cons p rest ih =>
    intro acc c'
    rw [List.foldl_cons]
    rcases hft : findTable env p.1 with _ | tm
    · have hstep : tableStep env acc p = acc := by
        unfold tableStep
        rw [hft]
      have hu : upsContrib env c' p = [] := by
        unfold upsContrib
        rw [hft]
      have hd : delsContrib env c' p = [] := by
        unfold delsContrib
        rw [hft]
      rw [hstep]
      rcases ih acc c' with ⟨h1, h2⟩
      constructor
      · rw [h1, List.map_cons, List.flatten_cons, hu, List.nil_append]
      · rw [h2, List.map_cons, List.flatten_cons, hd, List.nil_append]
    · by_cases hfo : env.fetchOk p.1
      · have hstep : tableStep env acc p =
            processTableIds env p.1 tm.collection p.2 acc := by
          unfold tableStep
          rw [hft]
          simp [hfo]
        have hu : upsContrib env c' p = (if c' = tm.collection then
            p.2.filter (fun rid =>
              env.rowExists p.1 rid && env.transformOk p.1 rid) else []) := by
          unfold upsContrib
          rw [hft]
          simp [hfo]
        have hd : delsContrib env c' p = (if c' = tm.collection then
            p.2.filter (fun rid => ! env.rowExists p.1 rid) else []) := by
          unfold delsContrib
          rw [hft]
          simp [hfo]
        rw [hstep]
        rcases ih (processTableIds env p.1 tm.collection p.2 acc) c' with
          ⟨h1, h2⟩
        rcases processTableIds_lookup env p.1 tm.collection p.2 acc c' with
          ⟨g1, g2⟩
        constructor
        · rw [h1, g1, List.map_cons, List.flatten_cons, hu,
            List.append_assoc]
        · rw [h2, g2, List.map_cons, List.flatten_cons, hd,
            List.append_assoc]
      · have hstep : tableStep env acc p = acc := by
          unfold tableStep
          rw [hft]
          simp [hfo]
        have hu : upsContrib env c' p = [] := by
          unfold upsContrib
          rw [hft]
          simp [hfo]
        have hd : delsContrib env c' p = [] := by
          unfold delsContrib
          rw [hft]
          simp [hfo]
        rw [hstep]
        rcases ih acc c' with ⟨h1, h2⟩
        constructor
        · rw [h1, List.map_cons, List.flatten_cons, hu, List.nil_append]
        · rw [h2, List.map_cons, List.flatten_cons, hd, List.nil_append]

theorem buildUpserts_lookup (env : Env)
    (idsF d0 : List (String × List String)) (c' : String) :
    lookupD (buildUpserts env idsF d0).1 c' =
      (idsF.map (upsContrib env c')).flatten ∧
    lookupD (buildUpserts env idsF d0).2 c' =
      lookupD d0 c' ++ (idsF.map (delsContrib env c')).flatten := by
  rcases buildUpserts_foldl_lookup env idsF ([], d0) c' with ⟨h1, h2⟩
  exact ⟨by simpa [buildUpserts, lookupD, lookupAssoc] using h1,
    by simpa [buildUpserts] using h2⟩

theorem mem_upsContrib_iff (env : Env) (c rid : String)
    (p : String × List String) :
    rid ∈ upsContrib env c p ↔
      ∃ tm', findTable env p.1 = some tm' ∧ env.fetchOk p.1 = true ∧
        c = tm'.collection ∧ rid ∈ p.2 ∧
        env.rowExists p.1 rid = true ∧ env.transformOk p.1 rid = true := by
  unfold upsContrib
  rcases hft : findTable env p.1 with _ | tm'
  · simp
  · by_cases hfo : env.fetchOk p.1
    · by_cases hc : c = tm'.collection
      · simp [hfo, hc, List.mem_filter, and_assoc]
      · simp [hfo, hc]
    · simp [hfo]

theorem mem_delsContrib_iff (env : Env) (c rid : String)
    (p : String × List String) :
    rid ∈ delsContrib env c p ↔
      ∃ tm', findTable env p.1 = some tm' ∧ env.fetchOk p.1 = true ∧
        c = tm'.collection ∧ rid ∈ p.2 ∧
        env.rowExists p.1 rid = false := by
  unfold delsContrib
  rcases hft : findTable env p.1 with _ | tm'
  · simp
  · by_cases hfo : env.fetchOk p.1
    · by_cases hc : c = tm'.collection
      · simp [hfo, hc, List.mem_filter, and_assoc]
      · simp [hfo, hc]
    · simp [hfo]

/-- A positive `lookupD` membership exposes the first association pair
with that key. -/
theorem exists_pair_of_mem_lookupD {α : Type} [DecidableEq α]
    (m : List (α × List String)) (k : α) (rid : String)
    (h : rid ∈ lookupD m k) :
    ∃ p ∈ m, p.1 = k ∧ rid ∈ p.2 := by
  unfold lookupD lookupAssoc at h
  rcases hf : m.find? (fun p => p.1 = k) with _ | p0
  · rw [hf] at h
    simp at h
  · rw [hf] at h
    simp at h
    have hp0 := List.find?_some hf
    simp only [decide_eq_true_eq] at hp0
    exact ⟨p0, List.mem_of_find?_eq_some hf, hp0, h⟩

/-- Claim C8: a record id queued as INSERT/UPDATE (it is in its table's
fetch list) whose row no longer exists is treated as a delete instead:
`{id: record_id}` is appended to the delete list of the table's target
collection, and — no other fetched table feeding the same collection
listing this id — no upsert document is produced for it. -/
theorem vanished_row_treated_as_delete (env : Env)
    (idsF d0 : List (String × List String)) (rid tn : String)
    (tm : TableMapping)
    (hin : rid ∈ lookupD idsF tn)
    (htm : findTable env tn = some tm)
    (hfo : env.fetchOk tn = true)
    (hgone : env.rowExists tn rid = false)
    (huniq : ∀ p ∈ idsF, ∀ tm', findTable env p.1 = some tm' →
      tm'.collection = tm.collection → rid ∈ p.2 → p.1 = tn) :
    rid ∈ lookupD (buildUpserts env idsF d0).2 tm.collection ∧
    rid ∉ lookupD (buildUpserts env idsF d0).1 tm.collection := by
  rcases buildUpserts_lookup env idsF d0 tm.collection with ⟨hU, hD⟩
  constructor
  · rw [hD]
    rcases exists_pair_of_mem_lookupD idsF tn rid hin with ⟨p0, hp0m, hp0k, hp0r⟩
    refine List.mem_append.2 (Or.inr ?_)
    refine List.mem_flatten.2 ⟨delsContrib env tm.collection p0,
      List.mem_map_of_mem _ hp0m, ?_⟩
    refine (mem_delsContrib_iff env tm.collection rid p0).2 ⟨tm, ?_, ?_, rfl, hp0r, ?_⟩
    · rw [hp0k, htm]
    · rw [hp0k, hfo]
    · rw [hp0k, hgone]
  · rw [hU]
    intro hmem
    rcases List.mem_flatten.1 hmem with ⟨l, hl, hridl⟩
    rcases List.mem_map.1 hl with ⟨p, hpm, rfl⟩
    rcases (mem_upsContrib_iff env tm.collection rid p).1 hridl with
      ⟨tm', hft', hfo', hc', hinp, hrow', _⟩
    have hptn : p.1 = tn := huniq p hpm tm' hft' hc'.symm hinp
    rw [hptn] at hrow'
    rw [hgone] at hrow'
    exact Bool.false_ne_true hrow'

def envVanished : Env :=
  { envAllOk with rowExists := fun _ r => r != "a" }

/-- Witness for C8: the queued id `a` whose row vanished lands in the
delete list of `users_c` and produces no upsert document. -/
theorem vanished_row_treated_as_delete_witness :
    "a" ∈ lookupD (buildUpserts envVanished [("users", ["a"])] []).2 "users_c" ∧
    "a" ∉ lookupD (buildUpserts envVanished [("users", ["a"])] []).1 "users_c" :=
  vanished_row_treated_as_delete envVanished [("users", ["a"])] [] "a" "users"
    ⟨"users", "users_c"⟩ (by decide) (by decide) rfl rfl
    (by
      intro p hp tm' _ _ _
      rcases List.mem_singleton.1 hp with rfl
      rfl)

/-- Claim C4: a record whose transform pipeline raises is excluded from
the upsert set by itself — another record of the same batch with a
successful transform is still upserted — and its failure does not abort
the batch: whenever reconciliation succeeds, the batch commits and every
claimed queue entry, including the failed record's, is removed from the
queue. -/
theorem transform_failure_isolated (env : Env) (queue : List QueueEntry)
    (rid rid2 tn : String) (tm : TableMapping)
    (htm : findTable env tn = some tm)
    (hfo : env.fetchOk tn = true)
    (hin : rid ∈ lookupD (categorize env (finalOps (claimBatch env queue))).1 tn)
    (_hrow : env.rowExists tn rid = true)
    (htf : env.transformOk tn rid = false)
    (hin2 : rid2 ∈ lookupD (categorize env (finalOps (claimBatch env queue))).1 tn)
    (hrow2 : env.rowExists tn rid2 = true)
    (htf2 : env.transformOk tn rid2 = true)
    (huniq : ∀ p ∈ (categorize env (finalOps (claimBatch env queue))).1,
      ∀ tm', findTable env p.1 = some tm' →
        tm'.collection = tm.collection → rid ∈ p.2 → p.1 = tn) :
    rid ∉ lookupD (batchUpsDels env (claimBatch env queue)).1 tm.collection ∧
    rid2 ∈ lookupD (batchUpsDels env (claimBatch env queue)).1 tm.collection ∧
    ((reconcile env (batchUpsDels env (claimBatch env queue)).1
        (batchUpsDels env (claimBatch env queue)).2).1 = true →
      (processBatch env queue).keepGoing = true ∧
      ∀ j ∈ claimBatch env queue, j ∉ (processBatch env queue).queue) := by
  have hbud : batchUpsDels env (claimBatch env queue) =
      buildUpserts env (categorize env (finalOps (claimBatch env queue))).1
        (categorize env (finalOps (claimBatch env queue))).2 := rfl
  rcases buildUpserts_lookup env
    (categorize env (finalOps (claimBatch env queue))).1
    (categorize env (finalOps (claimBatch env queue))).2 tm.collection with
    ⟨hU, hD⟩
  refine ⟨?_, ?_, ?_⟩
  · rw [hbud, hU]
    intro hmem
    rcases List.mem_flatten.1 hmem with ⟨l, hl, hridl⟩
    rcases List.mem_map.1 hl with ⟨p, hpm, rfl⟩
    rcases (mem_upsContrib_iff env tm.collection rid p).1 hridl with
      ⟨tm', hft', hfo', hc', hinp, _, htr'⟩
    have hptn : p.1 = tn := huniq p hpm tm' hft' hc'.symm hinp
    rw [hptn, htf] at htr'
    exact Bool.false_ne_true htr'
  · rw [hbud, hU]
    rcases exists_pair_of_mem_lookupD _ tn rid2 hin2 with ⟨p0, hp0m, hp0k, hp0r⟩
    refine List.mem_flatten.2 ⟨upsContrib env tm.collection p0,
      List.mem_map_of_mem _ hp0m, ?_⟩
    refine (mem_upsContrib_iff env tm.collection rid2 p0).2
      ⟨tm, ?_, ?_, rfl, hp0r, ?_, ?_⟩
    · rw [hp0k, htm]
    · rw [hp0k, hfo]
    · rw [hp0k, hrow2]
    · rw [hp0k, htf2]
  · intro hrec
    have hne : ¬ (claimBatch env queue).isEmpty := by
      intro hje
      have hnil : claimBatch env queue = [] := by
        rcases hcb : claimBatch env queue with _ | ⟨j0, js⟩
        · rfl
        · rw [hcb] at hje
          exact absurd hje (by simp)
      rw [hnil] at hin
      exact absurd hin (by simp [categorize, finalOps, lookupD, lookupAssoc])
    have hpb : processBatch env queue =
        ⟨ackedQueue env queue,
         queue.length - (ackedQueue env queue).length, true⟩ := by
      unfold processBatch
      rw [if_neg hne, if_pos hrec]
    rw [hpb]
    refine ⟨rfl, ?_⟩
    intro j hj hjq
    have := (List.mem_filter.1 hjq).2
    simp only [decide_eq_true_eq] at this
    exact this (List.mem_map_of_mem _ hj)

def envTfFail : Env :=
  { envAllOk with transformOk := fun _ r => r != "a" }

/-- Witness for C4: in a two-record batch where the transform of record
`a` fails, only `b` is upserted, the batch still commits, and both
claimed entries are removed from the queue. -/
theorem transform_failure_isolated_witness :
    "a" ∉ lookupD (batchUpsDels envTfFail (claimBatch envTfFail
      [⟨1, "a", "users", .INSERT, 0⟩, ⟨2, "b", "users", .INSERT, 1⟩])).1
      "users_c" ∧
    "b" ∈ lookupD (batchUpsDels envTfFail (claimBatch envTfFail
      [⟨1, "a", "users", .INSERT, 0⟩, ⟨2, "b", "users", .INSERT, 1⟩])).1
      "users_c" ∧
    (processBatch envTfFail
      [⟨1, "a", "users", .INSERT, 0⟩, ⟨2, "b", "users", .INSERT, 1⟩]).keepGoing
      = true ∧
    ∀ j ∈ claimBatch envTfFail
      [⟨1, "a", "users", .INSERT, 0⟩, ⟨2, "b", "users", .INSERT, 1⟩],
      j ∉ (processBatch envTfFail
        [⟨1, "a", "users", .INSERT, 0⟩, ⟨2, "b", "users", .INSERT, 1⟩]).queue := by
  have h := transform_failure_isolated envTfFail
    [⟨1, "a", "users", .INSERT, 0⟩, ⟨2, "b", "users", .INSERT, 1⟩]
    "a" "b" "users" ⟨"users", "users_c"⟩ (by decide) rfl (by decide) rfl rfl
    (by decide) rfl rfl
    (by
      intro p hp tm' _ _ _
      rcases List.mem_singleton.1 hp with rfl
      rfl)
  rcases h.2.2 (by decide) with ⟨hk, hq⟩
  exact ⟨h.1, h.2.1, hk, hq⟩

/-! ## Normalization claims -/

/-- Claim C6: date normalization maps `None` to `None`, numeric epoch
values to their (truncated) integer value, native date/time objects to
their epoch seconds, and strings via ISO-8601 parsing (`Z` read as
`+00:00`) with the fixed fallback formats; `"2024-01-15T14:30:00Z"`
yields the same epoch value `1705329000` as the aware UTC datetime
`2024-01-15 14:30:00+00:00` — whatever the local timezone — and an
unparseable string raises, which the document normalizer turns into
`null` for that field while the rest of the document is produced. -/
theorem date_normalization (localOff : Int) (pyStrFn : PyVal → String) :
    convert_date_to_timestamp localOff .vNone = .ok Option.none ∧
    (∀ n : Int, convert_date_to_timestamp localOff (.vInt n) = .ok (some n)) ∧
    (∀ q : PyFloat, convert_date_to_timestamp localOff (.vFloat q) =
      .ok (some q.trunc)) ∧
    (∀ naive micro tz,
      convert_date_to_timestamp localOff (.vDt naive micro tz) =
        .ok (some (dtTimestampTrunc localOff naive micro tz))) ∧
    convert_date_to_timestamp localOff (.vStr "2024-01-15T14:30:00Z") =
      .ok (some 1705329000) ∧
    convert_date_to_timestamp localOff (.vDt 1705329000 0 (some 0)) =
      .ok (some 1705329000) ∧
    convert_date_to_timestamp localOff (.vStr "not-a-date") = .err ∧
    normalize_document_for_typesense localOff pyStrFn
      [("d", .vStr "not-a-date"), ("x", .vInt 5)] [⟨"d", some "date"⟩] =
      [("d", .vNone), ("x", .vInt 5)] :=
  ⟨rfl, fun _ => rfl, fun _ => rfl, fun _ _ _ => rfl, rfl, rfl, rfl, rfl⟩

/-- Claim C7: the bracketed string `"[1.0, 2.0, 3.0]"`, the list
`[1.0, 2.0, 3.0]` and the tuple `(1, 2, 3)` all normalize to the same
float array; `None` passes through; any other iterable that is not a
string/bytes/mapping/set is coerced elementwise exactly like a list
(bytes, dicts and sets raise); and a failed conversion yields `null`
for the field while the rest of the document is produced. -/
theorem vector_normalization (localOff : Int) (pyStrFn : PyVal → String) :
    convert_vector_to_float_array (.vStr "[1.0, 2.0, 3.0]") =
      .ok (some [⟨1, 0⟩, ⟨2, 0⟩, ⟨3, 0⟩]) ∧
    convert_vector_to_float_array
      (.vList [.vFloat ⟨1, 0⟩, .vFloat ⟨2, 0⟩, .vFloat ⟨3, 0⟩]) =
      .ok (some [⟨1, 0⟩, ⟨2, 0⟩, ⟨3, 0⟩]) ∧
    convert_vector_to_float_array (.vTuple [.vInt 1, .vInt 2, .vInt 3]) =
      .ok (some [⟨1, 0⟩, ⟨2, 0⟩, ⟨3, 0⟩]) ∧
    convert_vector_to_float_array .vNone = .ok Option.none ∧
    (∀ l, convert_vector_to_float_array (.vIter l) =
      convert_vector_to_float_array (.vList l)) ∧
    (∀ l, convert_vector_to_float_array (.vTuple l) =
      convert_vector_to_float_array (.vList l)) ∧
    (∀ s, convert_vector_to_float_array (.vBytes s) = .err) ∧
    convert_vector_to_float_array .vDict = .err ∧
    convert_vector_to_float_array .vSet = .err ∧
    normalize_document_for_typesense localOff pyStrFn
      [("v", .vStr "nope"), ("x", .vInt 5)] [⟨"v", some "vector"⟩] =
      [("v", .vNone), ("x", .vInt 5)] :=
  ⟨rfl, rfl, rfl, rfl, fun _ => rfl, fun _ => rfl, fun _ => rfl, rfl, rfl,
    rfl⟩

theorem any_key_of_lookupAssoc_some {κ α : Type} [DecidableEq κ]
    (m : List (κ × α)) (k : κ) (v : α) (h : lookupAssoc m k = some v) :
    (m.any (fun p => p.1 = k)) = true := by
  unfold lookupAssoc at h
  rcases hf : m.find? (fun p => p.1 = k) with _ | p0
  · rw [hf] at h
    simp at h
  · have hp := List.find?_some hf
    exact List.any_eq_true.2 ⟨p0, List.mem_of_find?_eq_some hf, hp⟩

theorem map_fst_normalizeStep (localOff : Int) (pyStrFn : PyVal → String)
    (d : List (String × PyVal)) (fname : String) (fcfg : FieldSpec) :
    (normalizeStep localOff pyStrFn d fname fcfg).map Prod.fst =
      d.map Prod.fst := by
  unfold normalizeStep
  rcases hl : lookupAssoc d fname with _ | v
  · rfl
  · show (normalizeField localOff pyStrFn d fname fcfg v).map Prod.fst =
      d.map Prod.fst
    have hany := any_key_of_lookupAssoc_some d fname v hl
    have haux : ∀ w, (upsertAssoc d fname w).map Prod.fst = d.map Prod.fst := by
      intro w
      rw [map_fst_upsertAssoc, if_pos hany]
    unfold normalizeField
    by_cases hd : fcfg.source_type = some "date"
    · rw [if_pos hd]
      rcases convert_date_to_timestamp localOff v with w | _
      · exact haux _
      · exact haux _
    · rw [if_neg hd]
      by_cases hv : fcfg.source_type = some "vector"
      · rw [if_pos hv]
        rcases convert_vector_to_float_array v with w | _
        · exact haux _
        · exact haux _
      · rw [if_neg hv]
        rcases v with _ | _ | _ | _ | _ | _ | _ | _ | _ | _ | _ | _ | _ | _ <;>
          first | rfl | exact haux _

theorem lookupAssoc_normalizeStep_ne (localOff : Int)
    (pyStrFn : PyVal → String) (d : List (String × PyVal))
    (fname k : String) (fcfg : FieldSpec) (hne : k ≠ fname) :
    lookupAssoc (normalizeStep localOff pyStrFn d fname fcfg) k =
      lookupAssoc d k := by
  unfold normalizeStep
  rcases hl : lookupAssoc d fname with _ | v
  · rfl
  · show lookupAssoc (normalizeField localOff pyStrFn d fname fcfg v) k =
      lookupAssoc d k
    have haux : ∀ w, lookupAssoc (upsertAssoc d fname w) k =
        lookupAssoc d k := by
      intro w
      rw [lookupAssoc_upsertAssoc, if_neg hne]
    unfold normalizeField
    by_cases hd : fcfg.source_type = some "date"
    · rw [if_pos hd]
      rcases convert_date_to_timestamp localOff v with w | _
      · exact haux _
      · exact haux _
    · rw [if_neg hd]
      by_cases hv : fcfg.source_type = some "vector"
      · rw [if_pos hv]
        rcases convert_vector_to_float_array v with w | _
        · exact haux _
        · exact haux _
      · rw [if_neg hv]
        rcases v with _ | _ | _ | _ | _ | _ | _ | _ | _ | _ | _ | _ | _ | _ <;>
          first | rfl | exact haux _

theorem mem_upsertAssoc_cases {κ α : Type} [DecidableEq κ]
    (m : List (κ × α)) (k : κ) (v : α) (p : κ × α)
    (h : p ∈ upsertAssoc m k v) : p ∈ m ∨ p = (k, v) := by
  unfold upsertAssoc at h
  by_cases hany : (m.any (fun p => p.1 = k)) = true
  · rw [if_pos hany] at h
    rcases List.mem_map.1 h with ⟨q, hq, he⟩
    by_cases hqk : q.1 = k
    · rw [if_pos hqk] at he
      exact Or.inr he.symm
    · rw [if_neg hqk] at he
      exact Or.inl (he ▸ hq)
  · rw [if_neg hany] at h
    rcases List.mem_append.1 h with h | h
    · exact Or.inl h
    · exact Or.inr (List.mem_singleton.1 h)

/-- Every key of `fieldTypes schema` is the name of some schema field. -/
theorem fieldTypes_key_of_schema (schema : List FieldSpec) :
    ∀ p ∈ fieldTypes schema, ∃ f ∈ schema, f.name = p.1 := by
  unfold fieldTypes
  suffices h : ∀ (m : List (String × FieldSpec)),
      (∀ p ∈ m, ∃ f ∈ schema, f.name = p.1) →
      ∀ sub : List FieldSpec, (∀ f ∈ sub, f ∈ schema) →
      ∀ p ∈ sub.foldl (fun m f => upsertAssoc m f.name f) m,
        ∃ f ∈ schema, f.name = p.1 by
    intro p hp
    exact h [] (by simp) schema (fun f hf => hf) p hp
  intro m hm sub
  induction sub generalizing m with
  | nil => intro _ p hp; exact hm p hp
  | cons f fs ih =>
    intro hsub p hp
    rw [List.foldl_cons] at hp
    refine ih (upsertAssoc m f.name f) ?_ (fun g hg => hsub g (List.mem_cons_of_mem f hg)) p hp
    intro q hq
    rcases mem_upsertAssoc_cases m f.name f q hq with h | h
    · exact hm q h
    · exact ⟨f, hsub f (List.mem_cons_self f fs), by rw [h]⟩

/-- Claim C10: `normalize_document_for_typesense` preserves the
document's key list exactly — it never adds or removes a key (a failed
conversion nulls the value but keeps the key) — and every key not named
by a schema field keeps its value unchanged. -/
theorem normalize_preserves_keys (localOff : Int) (pyStrFn : PyVal → String)
    (doc : List (String × PyVal)) (schema : List FieldSpec) :
    (normalize_document_for_typesense localOff pyStrFn doc schema).map
      Prod.fst = doc.map Prod.fst ∧
    ∀ k, (∀ f ∈ schema, f.name ≠ k) →
      lookupAssoc (normalize_document_for_typesense localOff pyStrFn doc
        schema) k = lookupAssoc doc k := by
  unfold normalize_document_for_typesense
  have hkeys := fieldTypes_key_of_schema schema
  suffices h : ∀ (fts : List (String × FieldSpec)),
      (∀ p ∈ fts, ∃ f ∈ schema, f.name = p.1) →
      ∀ (d : List (String × PyVal)),
      ((fts.foldl (fun normalized p =>
        normalizeStep localOff pyStrFn normalized p.1 p.2) d).map Prod.fst =
        d.map Prod.fst) ∧
      (∀ k, (∀ f ∈ schema, f.name ≠ k) →
        lookupAssoc (fts.foldl (fun normalized p =>
          normalizeStep localOff pyStrFn normalized p.1 p.2) d) k =
          lookupAssoc d k) by
    exact h (fieldTypes schema) hkeys doc
  intro fts
  induction fts with
  | nil => intro _ d; exact ⟨rfl, fun k _ => rfl⟩
  | cons p ps ih =>
    intro hps d
    rw [List.foldl_cons]
    rcases ih (fun q hq => hps q (List.mem_cons_of_mem p hq))
      (normalizeStep localOff pyStrFn d p.1 p.2) with ⟨h1, h2⟩
    constructor
    · rw [h1, map_fst_normalizeStep]
    · intro k hk
      rw [h2 k hk, lookupAssoc_normalizeStep_ne]
      rcases hps p (List.mem_cons_self p ps) with ⟨f, hf, hfn⟩
      exact fun he => hk f hf (by rw [hfn, he])

/-- Witness for C10 at a concrete document and schema. -/
theorem normalize_preserves_keys_witness :
    (normalize_document_for_typesense 0 (fun _ => "")
      [("d", .vStr "not-a-date"), ("x", .vInt 5)]
      [⟨"d", some "date"⟩]).map Prod.fst = ["d", "x"] ∧
    lookupAssoc (normalize_document_for_typesense 0 (fun _ => "")
      [("d", .vStr "not-a-date"), ("x", .vInt 5)]
      [⟨"d", some "date"⟩]) "x" = some (.vInt 5) := by
  have h := normalize_preserves_keys 0 (fun _ => "")
    [("d", .vStr "not-a-date"), ("x", .vInt 5)] [⟨"d", some "date"⟩]
  refine ⟨by rw [h.1]; rfl, ?_⟩
  rw [h.2 "x" (by decide)]
  rfl

end PgTsSync
